import Mathlib

/-
Verification of the Monte Carlo tic-tac-toe engine (TicTacToe_MonteCarlo.py).

Shallow embedding conventions:
* A board cell holds either the empty marker "X" (modelled as `none`) or a
  player number (modelled as `some (n : ℤ)`, the source uses Python ints 1, 2).
* The 3x3 nested-list board is modelled as a total function
  `Fin 3 → Fin 3 → Option ℤ`; row-major iteration over the nested lists is
  modelled by the explicit enumeration `cellsOrder`.
* `Node` objects form a tree.  The Python `parent` back-pointer is represented
  implicitly: tree positions are addressed by index paths from the root, an
  upward walk along parents from a node is a downward update along the node's
  path.  `calculate_UCB1` therefore receives the parent's visit count as an
  explicit argument (in the source it reads `child.parent.visits`).
* Python floats are modelled as exact real numbers (the UCB1 score),
  accumulated win credit (integers plus halves) as exact rationals.
* The global random source consumed by `rollout` is abstracted: each search
  iteration's rollout outcome is supplied by an arbitrary stream
  `results : ℕ → ℤ` (a player number, or the draw sentinel -20).  Every
  theorem quantifies over all such streams, hence covers every behaviour of
  the real random source.
* Python exceptions are modelled by `Option` results
  (`calc_highest_visits` raises IndexError on a childless root in the source).
-/

/-- One board cell: `none` is the empty marker "X", `some p` a move by player `p`. -/
abbrev Cell : Type := Option ℤ

/-- A 3x3 board (the nested lists `game_state` / `game_board` of the source). -/
abbrev Board : Type := Fin 3 → Fin 3 → Cell

/-- Row-major enumeration of the nine cell coordinates, as produced by the
source's `for x, row in enumerate(...): for y, place in enumerate(row)` loops. -/
def cellsOrder : List (Fin 3 × Fin 3) :=
  (List.finRange 3).flatMap (fun x => (List.finRange 3).map (fun y => (x, y)))

/-- Writing player `p` into cell `(x, y)` (the source's `game[x][y] = player_num`). -/
def setCell (g : Board) (x y : Fin 3) (p : ℤ) : Board :=
  fun i j => if i = x ∧ j = y then some p else g i j

/-- check_for_win: rows and columns share one index loop, then both diagonals
(the source's early returns collapse to boolean disjunction). -/
def check_for_win (game_board : Board) (player : ℤ) : Bool :=
  ((List.finRange 3).any (fun i =>
      (decide (game_board i 0 = some player) &&
       decide (game_board i 1 = some player) &&
       decide (game_board i 2 = some player)) ||
      (decide (game_board 0 i = some player) &&
       decide (game_board 1 i = some player) &&
       decide (game_board 2 i = some player)))) ||
  (decide (game_board 0 0 = some player) &&
   decide (game_board 1 1 = some player) &&
   decide (game_board 2 2 = some player)) ||
  (decide (game_board 0 2 = some player) &&
   decide (game_board 1 1 = some player) &&
   decide (game_board 2 0 = some player))

/-- check_for_draw: flattens the board and reports `False` as soon as some cell
still holds the empty marker "X", `True` otherwise. -/
def check_for_draw (game : Board) : Bool :=
  if cellsOrder.any (fun c => decide (game c.1 c.2 = none)) then false else true

/-- A search-tree node (class `Node` of the source).  The `parent` attribute is
represented implicitly by tree structure (see the header comment). -/
inductive Node : Type where
  | mk (wins : ℚ) (visits : ℕ) (children : List Node) (game_state : Board)
       (player : ℤ) (is_end_state : Bool) : Node

def Node.wins : Node → ℚ
  | .mk w _ _ _ _ _ => w

def Node.visits : Node → ℕ
  | .mk _ v _ _ _ _ => v

def Node.children : Node → List Node
  | .mk _ _ ch _ _ _ => ch

def Node.game_state : Node → Board
  | .mk _ _ _ g _ _ => g

def Node.player : Node → ℤ
  | .mk _ _ _ _ p _ => p

def Node.is_end_state : Node → Bool
  | .mk _ _ _ _ _ e => e

/-- `Node.__init__`: a fresh node has `wins = 0`, `visits = 0`, no children and
`is_end_state = False` (the flag is unconditionally initialised to `False`). -/
def Node.new (game : Board) (player : ℤ) : Node :=
  .mk 0 0 [] game player false

/-- Updating the `wins`/`visits` attributes in place. -/
def Node.setStats (n : Node) (w : ℚ) (v : ℕ) : Node :=
  match n with
  | .mk _ _ ch g p e => .mk w v ch g p e

/-- Updating the `children` attribute in place. -/
def Node.setChildren (n : Node) (ch : List Node) : Node :=
  match n with
  | .mk w v _ g p e => .mk w v ch g p e

@[simp] theorem Node.wins_mk (w : ℚ) (v : ℕ) (ch : List Node) (g : Board)
    (p : ℤ) (e : Bool) : (Node.mk w v ch g p e).wins = w := rfl

@[simp] theorem Node.visits_mk (w : ℚ) (v : ℕ) (ch : List Node) (g : Board)
    (p : ℤ) (e : Bool) : (Node.mk w v ch g p e).visits = v := rfl

@[simp] theorem Node.children_mk (w : ℚ) (v : ℕ) (ch : List Node) (g : Board)
    (p : ℤ) (e : Bool) : (Node.mk w v ch g p e).children = ch := rfl

@[simp] theorem Node.game_state_mk (w : ℚ) (v : ℕ) (ch : List Node) (g : Board)
    (p : ℤ) (e : Bool) : (Node.mk w v ch g p e).game_state = g := rfl

@[simp] theorem Node.player_mk (w : ℚ) (v : ℕ) (ch : List Node) (g : Board)
    (p : ℤ) (e : Bool) : (Node.mk w v ch g p e).player = p := rfl

@[simp] theorem Node.is_end_state_mk (w : ℚ) (v : ℕ) (ch : List Node) (g : Board)
    (p : ℤ) (e : Bool) : (Node.mk w v ch g p e).is_end_state = e := rfl

@[simp] theorem Node.setStats_wins (n : Node) (w : ℚ) (v : ℕ) :
    (n.setStats w v).wins = w := by cases n; rfl

@[simp] theorem Node.setStats_visits (n : Node) (w : ℚ) (v : ℕ) :
    (n.setStats w v).visits = v := by cases n; rfl

@[simp] theorem Node.setStats_children (n : Node) (w : ℚ) (v : ℕ) :
    (n.setStats w v).children = n.children := by cases n; rfl

@[simp] theorem Node.setStats_game_state (n : Node) (w : ℚ) (v : ℕ) :
    (n.setStats w v).game_state = n.game_state := by cases n; rfl

@[simp] theorem Node.setStats_player (n : Node) (w : ℚ) (v : ℕ) :
    (n.setStats w v).player = n.player := by cases n; rfl

@[simp] theorem Node.setStats_is_end_state (n : Node) (w : ℚ) (v : ℕ) :
    (n.setStats w v).is_end_state = n.is_end_state := by cases n; rfl

@[simp] theorem Node.setChildren_wins (n : Node) (ch : List Node) :
    (n.setChildren ch).wins = n.wins := by cases n; rfl

@[simp] theorem Node.setChildren_visits (n : Node) (ch : List Node) :
    (n.setChildren ch).visits = n.visits := by cases n; rfl

@[simp] theorem Node.setChildren_children (n : Node) (ch : List Node) :
    (n.setChildren ch).children = ch := by cases n; rfl

@[simp] theorem Node.setChildren_game_state (n : Node) (ch : List Node) :
    (n.setChildren ch).game_state = n.game_state := by cases n; rfl

@[simp] theorem Node.setChildren_player (n : Node) (ch : List Node) :
    (n.setChildren ch).player = n.player := by cases n; rfl

@[simp] theorem Node.setChildren_is_end_state (n : Node) (ch : List Node) :
    (n.setChildren ch).is_end_state = n.is_end_state := by cases n; rfl

theorem Node.sizeOf_children_lt (n : Node) : sizeOf n.children < sizeOf n := by
  cases n with
  | mk w v ch g p e => simp [Node.children]; omega

theorem Node.sizeOf_lt_of_mem_children {c n : Node} (h : c ∈ n.children) :
    sizeOf c < sizeOf n :=
  lt_trans (List.sizeOf_lt_of_mem h) n.sizeOf_children_lt

/-- Strong induction over the tree structure of a node. -/
theorem Node.strongInd (P : Node → Prop)
    (ih : ∀ n : Node, (∀ c ∈ n.children, P c) → P n) : ∀ n : Node, P n := by
  have key : ∀ (k : ℕ) (n : Node), sizeOf n < k → P n := by
    intro k
    induction k with
    | zero => intro n h; omega
    | succ k IH =>
      intro n h
      refine ih n (fun c hc => IH c ?_)
      have := Node.sizeOf_lt_of_mem_children hc
      omega
  intro n
  exact key (sizeOf n + 1) n (by omega)

theorem mem_cellsOrder : ∀ xy : Fin 3 × Fin 3, xy ∈ cellsOrder := by decide

@[simp] theorem setCell_self (g : Board) (x y : Fin 3) (p : ℤ) :
    setCell g x y p x y = some p := by simp [setCell]

theorem setCell_other (g : Board) (x y : Fin 3) (p : ℤ) (i j : Fin 3)
    (h : ¬(i = x ∧ j = y)) : setCell g x y p i j = g i j := by simp [setCell, h]

/-- The strict-argmax scan shared by `max_UCB1_index` and `calc_highest_visits`:
walk the score list keeping the best value seen and its index, replacing the
best only on a strictly greater score (`if UCB1 > max_UCB1` in the source).
`i` is the absolute position of the head of `l`, `bestI` the index of the
current best. -/
def bestIdxAux {α : Type} [LinearOrder α] : List α → α → ℕ → ℕ → ℕ
  | [], _, _, bestI => bestI
  | s :: rest, best, i, bestI =>
    if best < s then bestIdxAux rest s (i + 1) i else bestIdxAux rest best (i + 1) bestI

theorem bestIdxAux_eq_or {α : Type} [LinearOrder α] (l : List α) (best : α) (i bestI : ℕ) :
    bestIdxAux l best i bestI = bestI ∨
    ∃ j, j < l.length ∧ bestIdxAux l best i bestI = i + j := by
  induction l generalizing best i bestI with
  | nil => left; rfl
  | cons s rest ih =>
    simp only [bestIdxAux]
    by_cases h : best < s
    · rw [if_pos h]
      rcases ih s (i + 1) i with h1 | ⟨j, hj, he⟩
      · right; exact ⟨0, by simp, by omega⟩
      · right; exact ⟨j + 1, by simpa using Nat.succ_lt_succ hj, by omega⟩
    · rw [if_neg h]
      rcases ih best (i + 1) bestI with h1 | ⟨j, hj, he⟩
      · left; exact h1
      · right; exact ⟨j + 1, by simpa using Nat.succ_lt_succ hj, by omega⟩

theorem bestIdxAux_of_le {α : Type} [LinearOrder α] (l : List α) (best : α) (i bestI : ℕ)
    (h : ∀ s ∈ l, s ≤ best) : bestIdxAux l best i bestI = bestI := by
  induction l generalizing best i bestI with
  | nil => rfl
  | cons s rest ih =>
    simp only [bestIdxAux]
    rw [if_neg (not_lt.mpr (h s (by simp)))]
    exact ih best (i + 1) bestI (fun t ht => h t (by simp [ht]))

theorem bestIdxAux_spec {α : Type} [LinearOrder α] (l : List α) (best : α) (i bestI : ℕ)
    (h : ∃ s ∈ l, best < s) :
    ∃ (j : ℕ) (hj : j < l.length),
      bestIdxAux l best i bestI = i + j ∧
      best < l[j] ∧
      (∀ (m : ℕ) (hm : m < l.length), l[m] ≤ l[j]) ∧
      (∀ (m : ℕ) (hm : m < l.length), m < j → l[m] < l[j]) := by
  induction l generalizing best i bestI with
  | nil => simp at h
  | cons s rest ih =>
    simp only [bestIdxAux]
    by_cases hbs : best < s
    · rw [if_pos hbs]
      by_cases hrest : ∃ t ∈ rest, s < t
      · obtain ⟨j, hj, heq, hlt, hmax, hstrict⟩ := ih s (i + 1) i hrest
        refine ⟨j + 1, by simpa using Nat.succ_lt_succ hj, by omega, ?_, ?_, ?_⟩
        · simpa using lt_trans hbs hlt
        · intro m hm
          match m, hm with
          | 0, hm => simpa using le_of_lt hlt
          | m + 1, hm => simpa using hmax m (by simpa using Nat.lt_of_succ_lt_succ hm)
        · intro m hm hmj
          match m, hm with
          | 0, hm => simpa using hlt
          | m + 1, hm =>
            simpa using hstrict m (by simpa using Nat.lt_of_succ_lt_succ hm) (by omega)
      · push_neg at hrest
        rw [bestIdxAux_of_le rest s (i + 1) i hrest]
        refine ⟨0, by simp, by omega, by simpa using hbs, ?_, ?_⟩
        · intro m hm
          match m, hm with
          | 0, hm => simp
          | m + 1, hm =>
            simpa using hrest _ (List.getElem_mem (by simpa using Nat.lt_of_succ_lt_succ hm))
        · intro m hm h0; omega
    · rw [if_neg hbs]
      have hs_le : s ≤ best := not_lt.mp hbs
      have hrest : ∃ t ∈ rest, best < t := by
        obtain ⟨t, ht, hbt⟩ := h
        rcases List.mem_cons.mp ht with rfl | htr
        · exact absurd hbt hbs
        · exact ⟨t, htr, hbt⟩
      obtain ⟨j, hj, heq, hlt, hmax, hstrict⟩ := ih best (i + 1) bestI hrest
      refine ⟨j + 1, by simpa using Nat.succ_lt_succ hj, by omega, by simpa using hlt, ?_, ?_⟩
      · intro m hm
        match m, hm with
        | 0, hm => simpa using le_of_lt (lt_of_le_of_lt hs_le hlt)
        | m + 1, hm => simpa using hmax m (by simpa using Nat.lt_of_succ_lt_succ hm)
      · intro m hm hmj
        match m, hm with
        | 0, hm => simpa using lt_of_le_of_lt hs_le hlt
        | m + 1, hm =>
          simpa using hstrict m (by simpa using Nat.lt_of_succ_lt_succ hm) (by omega)

theorem bestIdx_top_spec {α : Type} [LinearOrder α] (c : α) (rest : List α) :
    ∃ hlt : bestIdxAux (c :: rest) c 0 0 < (c :: rest).length,
      (∀ (m : ℕ) (hm : m < (c :: rest).length),
        (c :: rest)[m] ≤ (c :: rest)[bestIdxAux (c :: rest) c 0 0]) ∧
      (∀ (m : ℕ) (hm : m < (c :: rest).length), m < bestIdxAux (c :: rest) c 0 0 →
        (c :: rest)[m] < (c :: rest)[bestIdxAux (c :: rest) c 0 0]) := by
  by_cases hex : ∃ s ∈ c :: rest, c < s
  · obtain ⟨j, hj, heq, hlt, hmax, hstrict⟩ := bestIdxAux_spec (c :: rest) c 0 0 hex
    rw [show (0 : ℕ) + j = j by omega] at heq
    refine ⟨by omega, ?_, ?_⟩
    · intro m hm
      have := hmax m hm
      simp only [heq]
      exact this
    · intro m hm hmj
      rw [heq] at hmj
      have := hstrict m hm hmj
      simp only [heq]
      exact this
  · push_neg at hex
    have h0 : bestIdxAux (c :: rest) c 0 0 = 0 := bestIdxAux_of_le _ _ _ _ hex
    refine ⟨by simp [h0], ?_, ?_⟩
    · intro m hm
      simp only [h0, List.getElem_cons_zero]
      exact hex _ (List.getElem_mem hm)
    · intro m hm hmj
      omega

/-- calculate_UCB1: exploitation plus `1.4` times the exploration radical.
The source reads the parent's visit count through `child.parent.visits`; in
this parent-pointer-free embedding the caller passes that count explicitly.
Python float arithmetic is modelled by exact real arithmetic;
`math.log2` is `Real.logb 2` and `math.sqrt` is `Real.sqrt`. -/
noncomputable def calculate_UCB1 (num_parent_visits : ℕ) (child : Node) : ℝ :=
  (child.wins : ℝ) / (child.visits : ℝ) +
    1.4 * Real.sqrt (Real.logb 2 (num_parent_visits : ℝ) / (child.visits : ℝ))

/-- max_UCB1_index: start with child 0 as the best, then replace the best index
only on a strictly greater UCB1 score (empty child list is an IndexError in the
source; this total model returns 0 there, but no caller reaches that case). -/
noncomputable def max_UCB1_index (current : Node) : ℕ :=
  match current.children with
  | [] => 0
  | c :: rest =>
    bestIdxAux ((c :: rest).map (calculate_UCB1 current.visits))
      (calculate_UCB1 current.visits c) 0 0

theorem max_UCB1_index_lt (n : Node) (h : n.children ≠ []) :
    max_UCB1_index n < n.children.length := by
  unfold max_UCB1_index
  cases hc : n.children with
  | nil => exact absurd hc h
  | cons c rest =>
    simp only [List.map_cons]
    rcases bestIdxAux_eq_or ((calculate_UCB1 n.visits c) :: rest.map (calculate_UCB1 n.visits))
        (calculate_UCB1 n.visits c) 0 0 with h1 | ⟨j, hj, he⟩
    · simp [h1]
    · rw [he]
      simp only [List.length_cons, List.length_map] at hj ⊢
      omega

theorem List_getElem_eq_of_eq {α : Type} (l : List α) {i j : ℕ} (hij : i = j)
    (hi : i < l.length) (hj : j < l.length) : l[i] = l[j] := by
  subst hij; rfl

theorem max_UCB1_index_spec (n : Node) (h : n.children ≠ []) :
    ∃ hlt : max_UCB1_index n < n.children.length,
      (∀ (j : ℕ) (hj : j < n.children.length),
        calculate_UCB1 n.visits (n.children[j]) ≤
          calculate_UCB1 n.visits (n.children[max_UCB1_index n])) ∧
      (∀ (j : ℕ) (hj : j < n.children.length), j < max_UCB1_index n →
        calculate_UCB1 n.visits (n.children[j]) <
          calculate_UCB1 n.visits (n.children[max_UCB1_index n])) := by
  have hidx : max_UCB1_index n < n.children.length := max_UCB1_index_lt n h
  cases hc : n.children with
  | nil => exact absurd hc h
  | cons c rest =>
    rw [hc] at hidx
    have hform : max_UCB1_index n =
        bestIdxAux ((calculate_UCB1 n.visits c) :: rest.map (calculate_UCB1 n.visits))
          (calculate_UCB1 n.visits c) 0 0 := by
      unfold max_UCB1_index
      rw [hc]
      simp only [List.map_cons]
    obtain ⟨hlt, hmax, hstrict⟩ :=
      bestIdx_top_spec (calculate_UCB1 n.visits c) (rest.map (calculate_UCB1 n.visits))
    have hval : ∀ (m : ℕ)
        (hm1 : m < ((calculate_UCB1 n.visits c) :: rest.map (calculate_UCB1 n.visits)).length)
        (hm2 : m < (c :: rest).length),
        ((calculate_UCB1 n.visits c) :: rest.map (calculate_UCB1 n.visits))[m] =
          calculate_UCB1 n.visits ((c :: rest)[m]) := by
      intro m hm1 hm2
      match m, hm1, hm2 with
      | 0, _, _ => rfl
      | m + 1, hm1, hm2 => simp
    have hltL : bestIdxAux ((calculate_UCB1 n.visits c) :: rest.map (calculate_UCB1 n.visits))
        (calculate_UCB1 n.visits c) 0 0 < (c :: rest).length := by simpa using hlt
    have hswap : calculate_UCB1 n.visits ((c :: rest)[max_UCB1_index n]) =
        calculate_UCB1 n.visits
          ((c :: rest)[bestIdxAux ((calculate_UCB1 n.visits c) :: rest.map (calculate_UCB1 n.visits))
            (calculate_UCB1 n.visits c) 0 0]) :=
      congrArg _ (List_getElem_eq_of_eq _ hform hidx hltL)
    refine ⟨hidx, ?_, ?_⟩
    · intro j hj
      have hj' : j < ((calculate_UCB1 n.visits c) :: rest.map (calculate_UCB1 n.visits)).length := by
        simpa using hj
      have h1 := hmax j hj'
      rw [hval j hj' hj, hval _ (by simpa using hltL) hltL] at h1
      rw [hswap]
      exact h1
    · intro j hj hjm
      have hj' : j < ((calculate_UCB1 n.visits c) :: rest.map (calculate_UCB1 n.visits)).length := by
        simpa using hj
      have h1 := hstrict j hj' (by rw [← hform]; exact hjm)
      rw [hval j hj' hj, hval _ (by simpa using hltL) hltL] at h1
      rw [hswap]
      exact h1

/-- Child access `node.children[i]` (total model of Python list indexing;
all uses are guarded by an in-range proof). -/
def getChild (n : Node) (i : ℕ) : Node := n.children.getD i n

/-- Replacing child `i` of a node. -/
def setChild (n : Node) (i : ℕ) (c : Node) : Node := n.setChildren (n.children.set i c)

/-- The node addressed by an index path from `n` (the implicit representation
of Python object identity inside the tree). -/
def getNode : Node → List ℕ → Node
  | n, [] => n
  | n, i :: rest => getNode (getChild n i) rest

/-- In-place mutation of the node addressed by a path. -/
def updateAt : Node → List ℕ → (Node → Node) → Node
  | n, [], f => f n
  | n, i :: rest, f => setChild n i (updateAt (getChild n i) rest f)

/-- A path addresses an actually existing node. -/
def validPath : Node → List ℕ → Bool
  | _, [] => true
  | n, i :: rest => decide (i < n.children.length) && validPath (getChild n i) rest

/-- `isInit q path` holds when `q` is an initial segment of `path`: the nodes
on the parent chain of the node at `path` are exactly those at initial
segments of `path`. -/
def isInit : List ℕ → List ℕ → Bool
  | [], _ => true
  | _ :: _, [] => false
  | a :: as, b :: bs => decide (a = b) && isInit as bs

@[simp] theorem getNode_nil (n : Node) : getNode n [] = n := rfl

@[simp] theorem getNode_cons (n : Node) (i : ℕ) (rest : List ℕ) :
    getNode n (i :: rest) = getNode (getChild n i) rest := rfl

@[simp] theorem validPath_nil (n : Node) : validPath n [] = true := rfl

theorem validPath_cons (n : Node) (i : ℕ) (rest : List ℕ) :
    validPath n (i :: rest) = (decide (i < n.children.length) && validPath (getChild n i) rest) := rfl

@[simp] theorem isInit_nil_left (q : List ℕ) : isInit [] q = true := rfl

@[simp] theorem isInit_cons_nil (a : ℕ) (as : List ℕ) : isInit (a :: as) [] = false := rfl

theorem isInit_cons_cons (a b : ℕ) (as bs : List ℕ) :
    isInit (a :: as) (b :: bs) = (decide (a = b) && isInit as bs) := rfl

theorem getChild_eq_getElem (n : Node) (i : ℕ) (h : i < n.children.length) :
    getChild n i = n.children[i] := List.getD_eq_getElem _ _ h

/-- First-hit specification of `List.find?`/`List.findIdx` on a list with some
match (the shape of the source's `for child in ...: if ...: return child` loop). -/
theorem find_first_spec {α : Type} (p : α → Bool) (l : List α) (h : l.any p = true) :
    ∃ (i : ℕ) (hi : i < l.length),
      l.find? p = some (l[i]) ∧ l.findIdx p = i ∧ p (l[i]) = true ∧
      ∀ (j : ℕ) (hj : j < l.length), j < i → p (l[j]) = false := by
  induction l with
  | nil => simp at h
  | cons a rest ih =>
    by_cases ha : p a = true
    · refine ⟨0, by simp, ?_, ?_, by simpa using ha, fun j hj hj0 => by omega⟩
      · simp [List.find?_cons, ha]
      · simp [List.findIdx_cons, ha]
    · have ha' : p a = false := by simpa using ha
      have h' : rest.any p = true := by
        rcases List.any_eq_true.mp h with ⟨x, hx, hpx⟩
        rcases List.mem_cons.mp hx with rfl | hxr
        · exact absurd hpx ha
        · exact List.any_eq_true.mpr ⟨x, hxr, hpx⟩
      obtain ⟨i, hi, hfind, hidx, hp, hbefore⟩ := ih h'
      refine ⟨i + 1, by simpa using Nat.succ_lt_succ hi, ?_, ?_, by simpa using hp, ?_⟩
      · rw [List.find?_cons, ha']
        simpa using hfind
      · simp [List.findIdx_cons, ha', hidx]
      · intro j hj hji
        match j, hj with
        | 0, hj => simpa using ha'
        | j + 1, hj => simpa using hbefore j (by simpa using Nat.lt_of_succ_lt_succ hj) (by omega)

instance decNilNode (l : List Node) : Decidable (l = []) :=
  match l with
  | [] => isTrue rfl
  | _ :: _ => isFalse (by simp)

/-- traverse: return the node itself when it has no children, else the first
zero-visit child, else recurse into the child of maximal UCB1 score. -/
noncomputable def traverse (current : Node) : Node :=
  if h : current.children = [] then current
  else if current.children.any (fun x => x.visits == 0) then
    match current.children.find? (fun x => x.visits == 0) with
    | some child => child
    | none => current
  else
    traverse (current.children.get ⟨max_UCB1_index current, max_UCB1_index_lt current h⟩)
termination_by sizeOf current
decreasing_by
  exact Node.sizeOf_lt_of_mem_children (List.get_mem _ _ _)

/-- The index path from the root to the node `traverse` selects.  In this
parent-pointer-free embedding, back-propagation walks this path downward
instead of following `parent` references upward (same set of nodes). -/
noncomputable def traversePath (current : Node) : List ℕ :=
  if h : current.children = [] then []
  else if current.children.any (fun x => x.visits == 0) then
    [current.children.findIdx (fun x => x.visits == 0)]
  else
    max_UCB1_index current ::
      traversePath (current.children.get ⟨max_UCB1_index current, max_UCB1_index_lt current h⟩)
termination_by sizeOf current
decreasing_by
  exact Node.sizeOf_lt_of_mem_children (List.get_mem _ _ _)

/-- Instrumentation of `traverse`: the nodes on which `max_UCB1_index` (and
hence `calculate_UCB1`, once per child) is invoked during the descent. -/
noncomputable def ucbCalls (current : Node) : List Node :=
  if h : current.children = [] then []
  else if current.children.any (fun x => x.visits == 0) then []
  else
    current :: ucbCalls (current.children.get ⟨max_UCB1_index current, max_UCB1_index_lt current h⟩)
termination_by sizeOf current
decreasing_by
  exact Node.sizeOf_lt_of_mem_children (List.get_mem _ _ _)

theorem traverse_of_no_children (n : Node) (h : n.children = []) : traverse n = n := by
  rw [traverse.eq_def, dif_pos h]

theorem traversePath_of_no_children (n : Node) (h : n.children = []) : traversePath n = [] := by
  rw [traversePath.eq_def, dif_pos h]

theorem ucbCalls_of_no_children (n : Node) (h : n.children = []) : ucbCalls n = [] := by
  rw [ucbCalls.eq_def, dif_pos h]

theorem children_ne_nil_of_any_zero (n : Node)
    (h : n.children.any (fun x => x.visits == 0) = true) : n.children ≠ [] := by
  intro hc
  rw [hc] at h
  simp at h

theorem traverse_of_zero_child (n : Node)
    (h : n.children.any (fun x => x.visits == 0) = true) :
    ∃ (i : ℕ) (hi : i < n.children.length),
      traverse n = n.children[i] ∧ (n.children[i]).visits = 0 ∧
      traversePath n = [i] ∧ ucbCalls n = [] ∧
      ∀ (j : ℕ) (hj : j < n.children.length), j < i → (n.children[j]).visits ≠ 0 := by
  have hc : n.children ≠ [] := children_ne_nil_of_any_zero n h
  obtain ⟨i, hi, hfind, hidx, hp, hbefore⟩ := find_first_spec (fun x => x.visits == 0) n.children h
  refine ⟨i, hi, ?_, by simpa using hp, ?_, ?_, ?_⟩
  · rw [traverse.eq_def, dif_neg hc, if_pos h, hfind]
  · rw [traversePath.eq_def, dif_neg hc, if_pos h, hidx]
  · rw [ucbCalls.eq_def, dif_neg hc, if_pos h]
  · intro j hj hji
    have := hbefore j hj hji
    simpa using this

theorem traverse_of_all_visited (n : Node) (h : n.children ≠ [])
    (h2 : n.children.any (fun x => x.visits == 0) = false) :
    ∃ hlt : max_UCB1_index n < n.children.length,
      traverse n = traverse (n.children.get ⟨max_UCB1_index n, hlt⟩) ∧
      traversePath n =
        max_UCB1_index n :: traversePath (n.children.get ⟨max_UCB1_index n, hlt⟩) ∧
      ucbCalls n = n :: ucbCalls (n.children.get ⟨max_UCB1_index n, hlt⟩) := by
  refine ⟨max_UCB1_index_lt n h, ?_, ?_, ?_⟩
  · rw [traverse.eq_def, dif_neg h, if_neg (by simp [h2])]
  · rw [traversePath.eq_def, dif_neg h, if_neg (by simp [h2])]
  · rw [ucbCalls.eq_def, dif_neg h, if_neg (by simp [h2])]

/-- The node `traverse` returns is always childless or unvisited (in
particular, expansion is only ever applied to a childless node). -/
theorem traverse_result (n : Node) :
    (traverse n).children = [] ∨ (traverse n).visits = 0 := by
  induction n using Node.strongInd with
  | ih n IH =>
    by_cases hc : n.children = []
    · rw [traverse_of_no_children n hc]
      exact Or.inl hc
    · by_cases hz : n.children.any (fun x => x.visits == 0) = true
      · obtain ⟨i, hi, htrav, hvis, _, _, _⟩ := traverse_of_zero_child n hz
        rw [htrav]
        exact Or.inr hvis
      · have h2 : n.children.any (fun x => x.visits == 0) = false := by simpa using hz
        obtain ⟨hlt, ht, _, _⟩ := traverse_of_all_visited n hc h2
        rw [ht]
        exact IH _ (List.get_mem _ _ _)

/-- The path produced by `traversePath` addresses exactly the node produced by
`traverse` (the bridge between the source's node-returning selection and the
path-based state updates of this embedding). -/
theorem getNode_traversePath (n : Node) : getNode n (traversePath n) = traverse n := by
  induction n using Node.strongInd with
  | ih n IH =>
    by_cases hc : n.children = []
    · rw [traversePath_of_no_children n hc, traverse_of_no_children n hc]
      rfl
    · by_cases hz : n.children.any (fun x => x.visits == 0) = true
      · obtain ⟨i, hi, htrav, _, hpath, _, _⟩ := traverse_of_zero_child n hz
        rw [hpath, htrav]
        simp [getNode, getChild_eq_getElem n i hi]
      · have h2 : n.children.any (fun x => x.visits == 0) = false := by simpa using hz
        obtain ⟨hlt, ht, hp, _⟩ := traverse_of_all_visited n hc h2
        rw [hp, ht, getNode_cons,
          getChild_eq_getElem n (max_UCB1_index n) hlt]
        have hmem : n.children.get ⟨max_UCB1_index n, hlt⟩ ∈ n.children := List.get_mem _ _ _
        have := IH _ hmem
        simpa using this

theorem validPath_traversePath (n : Node) : validPath n (traversePath n) = true := by
  induction n using Node.strongInd with
  | ih n IH =>
    by_cases hc : n.children = []
    · rw [traversePath_of_no_children n hc]
      rfl
    · by_cases hz : n.children.any (fun x => x.visits == 0) = true
      · obtain ⟨i, hi, _, _, hpath, _, _⟩ := traverse_of_zero_child n hz
        rw [hpath, validPath_cons]
        simp [hi]
      · have h2 : n.children.any (fun x => x.visits == 0) = false := by simpa using hz
        obtain ⟨hlt, _, hp, _⟩ := traverse_of_all_visited n hc h2
        rw [hp, validPath_cons, getChild_eq_getElem n (max_UCB1_index n) hlt]
        have hmem : n.children.get ⟨max_UCB1_index n, hlt⟩ ∈ n.children := List.get_mem _ _ _
        have := IH _ hmem
        simp [hlt]
        simpa using this

/-- The mover flip `player_num = 1 if current.player == 2 else 2`. -/
def flipPlayer (p : ℤ) : ℤ := if p = 2 then 1 else 2

/-- One child created inside `expand`'s loop: the flipped mover occupies the
empty cell `(x, y)` of board `g` in a fresh copy of the board; the two source
statements that set `is_end_state` on a draw resp. a win collapse to a
disjunction.  The Python `parent = current` argument is implicit: the child is
appended under `current` in the tree. -/
def childNode (g : Board) (p : ℤ) (x y : Fin 3) : Node :=
  Node.mk 0 0 [] (setCell g x y (flipPlayer p)) (flipPlayer p)
    (check_for_draw (setCell g x y (flipPlayer p)) ||
     check_for_win (setCell g x y (flipPlayer p)) (flipPlayer p))

/-- The children generated by `expand`'s row-major scan over the empty cells. -/
def expandChildren (g : Board) (p : ℤ) : List Node :=
  (cellsOrder.filter (fun c => decide (g c.1 c.2 = none))).map
    (fun c => childNode g p c.1 c.2)

/-- expand: append one child per empty cell to `current.children`. -/
def expand (current : Node) : Node :=
  current.setChildren
    (current.children ++ expandChildren current.game_state current.player)

/-- The win credit `back_propagate` adds for one node: 0.5 on the draw
sentinel, 1 when the node's mover equals the rollout winner, else 0. -/
def creditQ (rollout_result : ℤ) (p : ℤ) : ℚ :=
  if rollout_result = -20 then 1/2 else if p = rollout_result then 1 else 0

/-- The per-node statistics update performed by `back_propagate`. -/
def bpUpdate (rollout_result : ℤ) (n : Node) : Node :=
  if rollout_result = -20 then n.setStats (n.wins + 1/2) (n.visits + 1)
  else if n.player = rollout_result then n.setStats (n.wins + 1) (n.visits + 1)
  else n.setStats n.wins (n.visits + 1)

/-- back_propagate: the source walks `parent` references from the selected
node up to the root; the same chain of nodes is the set of initial segments of
the node's path, so this embedding applies `bpUpdate` along the path
root-downward (the per-node updates are independent, so order is immaterial). -/
def backPropagateAt (n : Node) (path : List ℕ) (rollout_result : ℤ) : Node :=
  match path with
  | [] => bpUpdate rollout_result n
  | i :: rest =>
    bpUpdate rollout_result (setChild n i (backPropagateAt (getChild n i) rest rollout_result))

@[simp] theorem bpUpdate_visits (res : ℤ) (n : Node) :
    (bpUpdate res n).visits = n.visits + 1 := by
  unfold bpUpdate
  by_cases h1 : res = -20
  · simp [h1]
  · by_cases h2 : n.player = res <;> simp [h1, h2]

@[simp] theorem bpUpdate_wins (res : ℤ) (n : Node) :
    (bpUpdate res n).wins = n.wins + creditQ res n.player := by
  unfold bpUpdate creditQ
  by_cases h1 : res = -20
  · simp [h1]
  · by_cases h2 : n.player = res <;> simp [h1, h2]

@[simp] theorem bpUpdate_children (res : ℤ) (n : Node) :
    (bpUpdate res n).children = n.children := by
  unfold bpUpdate
  by_cases h1 : res = -20
  · simp [h1]
  · by_cases h2 : n.player = res <;> simp [h1, h2]

@[simp] theorem bpUpdate_game_state (res : ℤ) (n : Node) :
    (bpUpdate res n).game_state = n.game_state := by
  unfold bpUpdate
  by_cases h1 : res = -20
  · simp [h1]
  · by_cases h2 : n.player = res <;> simp [h1, h2]

@[simp] theorem bpUpdate_player (res : ℤ) (n : Node) :
    (bpUpdate res n).player = n.player := by
  unfold bpUpdate
  by_cases h1 : res = -20
  · simp [h1]
  · by_cases h2 : n.player = res <;> simp [h1, h2]

@[simp] theorem bpUpdate_is_end_state (res : ℤ) (n : Node) :
    (bpUpdate res n).is_end_state = n.is_end_state := by
  unfold bpUpdate
  by_cases h1 : res = -20
  · simp [h1]
  · by_cases h2 : n.player = res <;> simp [h1, h2]

@[simp] theorem setChild_children (n : Node) (i : ℕ) (c : Node) :
    (setChild n i c).children = n.children.set i c := by
  unfold setChild; simp

@[simp] theorem setChild_visits (n : Node) (i : ℕ) (c : Node) :
    (setChild n i c).visits = n.visits := by unfold setChild; simp

@[simp] theorem setChild_wins (n : Node) (i : ℕ) (c : Node) :
    (setChild n i c).wins = n.wins := by unfold setChild; simp

@[simp] theorem setChild_game_state (n : Node) (i : ℕ) (c : Node) :
    (setChild n i c).game_state = n.game_state := by unfold setChild; simp

@[simp] theorem setChild_player (n : Node) (i : ℕ) (c : Node) :
    (setChild n i c).player = n.player := by unfold setChild; simp

@[simp] theorem setChild_is_end_state (n : Node) (i : ℕ) (c : Node) :
    (setChild n i c).is_end_state = n.is_end_state := by unfold setChild; simp

@[simp] theorem expand_visits (n : Node) : (expand n).visits = n.visits := by
  unfold expand; simp

@[simp] theorem expand_wins (n : Node) : (expand n).wins = n.wins := by
  unfold expand; simp

@[simp] theorem expand_game_state (n : Node) : (expand n).game_state = n.game_state := by
  unfold expand; simp

@[simp] theorem expand_player (n : Node) : (expand n).player = n.player := by
  unfold expand; simp

@[simp] theorem expand_is_end_state (n : Node) : (expand n).is_end_state = n.is_end_state := by
  unfold expand; simp

@[simp] theorem expand_children (n : Node) :
    (expand n).children = n.children ++ expandChildren n.game_state n.player := by
  unfold expand; simp

/-- calc_highest_visits: strict argmax of the children's visit counts
(`if node.children[i].visits > highest_visits: ...`), returning the winning
child's board; `none` models the IndexError the source raises on a childless
node (`node.children[0]` with `children == []`). -/
def calc_highest_visits (node : Node) : Option Board :=
  match node.children with
  | [] => none
  | c :: rest =>
    some (((c :: rest).getD (bestIdxAux ((c :: rest).map Node.visits) c.visits 0 0) c).game_state)

/-- find_comp_move: first cell, in row-major order, where the two boards
differ; the pair `(-1, -1)` is the source's sentinel for "no difference". -/
def find_comp_move (game_state comp_move_state : Board) : ℤ × ℤ :=
  match cellsOrder.find?
      (fun c => decide (game_state c.1 c.2 ≠ comp_move_state c.1 c.2)) with
  | some c => ((c.1.val : ℤ), (c.2.val : ℤ))
  | none => (-1, -1)

/-- One iteration of the `for num_iter in range(1000)` loop of make_comp_move:
select, then either rollout on a fresh or terminal node, or expand and rollout
on the first new child; `res` is this iteration's rollout outcome (see the
header comment on the abstracted random source). -/
noncomputable def mctsStep (root : Node) (res : ℤ) : Node :=
  if (getNode root (traversePath root)).visits = 0 ∨
      (getNode root (traversePath root)).is_end_state = true then
    backPropagateAt root (traversePath root) res
  else
    backPropagateAt (updateAt root (traversePath root) expand)
      (traversePath root ++ [0]) res

/-- The first `k` iterations of make_comp_move's search loop. -/
noncomputable def mctsLoop (root : Node) (results : ℕ → ℤ) : ℕ → Node
  | 0 => root
  | k + 1 => mctsStep (mctsLoop root results k) (results k)

/-- make_comp_move: build a fresh root holding the current board, attributed
to the human mover `num`, run 1000 search iterations, pick the most visited
root child and return the coordinates where its board differs from the root's
board. -/
noncomputable def make_comp_move (state : Board) (num : ℤ) (results : ℕ → ℤ) :
    Option (ℤ × ℤ) :=
  (calc_highest_visits (mctsLoop (Node.new state num) results 1000)).map
    (fun comp_move_state =>
      find_comp_move (mctsLoop (Node.new state num) results 1000).game_state
        comp_move_state)

theorem backPropagateAt_nil (n : Node) (res : ℤ) :
    backPropagateAt n [] res = bpUpdate res n := rfl

theorem backPropagateAt_cons (n : Node) (i : ℕ) (rest : List ℕ) (res : ℤ) :
    backPropagateAt n (i :: rest) res =
      bpUpdate res (setChild n i (backPropagateAt (getChild n i) rest res)) := rfl

/-- Exact effect of `backPropagateAt` at every valid path `q`: every node keeps
its board, mover, terminal flag and child count; the nodes on the chain of
initial segments of `path` gain one visit and the rollout credit; every other
node is untouched. -/
theorem bp_master (path : List ℕ) (res : ℤ) :
    ∀ (n : Node) (q : List ℕ), validPath n q = true →
      (getNode (backPropagateAt n path res) q).game_state = (getNode n q).game_state ∧
      (getNode (backPropagateAt n path res) q).player = (getNode n q).player ∧
      (getNode (backPropagateAt n path res) q).is_end_state = (getNode n q).is_end_state ∧
      (getNode (backPropagateAt n path res) q).children.length =
        (getNode n q).children.length ∧
      validPath (backPropagateAt n path res) q = true ∧
      (isInit q path = true →
        (getNode (backPropagateAt n path res) q).visits = (getNode n q).visits + 1 ∧
        (getNode (backPropagateAt n path res) q).wins =
          (getNode n q).wins + creditQ res (getNode n q).player) ∧
      (isInit q path = false → getNode (backPropagateAt n path res) q = getNode n q) := by
  induction path with
  | nil =>
    intro n q hq
    match q with
    | [] =>
      rw [backPropagateAt_nil]
      refine ⟨by simp, by simp, by simp, by simp, by simp, ?_, ?_⟩
      · intro _
        exact ⟨by simp, by simp⟩
      · intro hfalse
        simp at hfalse
    | j :: q' =>
      rw [validPath_cons] at hq
      have hj : j < n.children.length := by simpa using (Bool.and_eq_true_iff.mp hq).1
      have hq' : validPath (getChild n j) q' = true := (Bool.and_eq_true_iff.mp hq).2
      have hch : (backPropagateAt n [] res).children = n.children := by
        rw [backPropagateAt_nil]; simp
      have hkey : getChild (backPropagateAt n [] res) j = getChild n j := by
        unfold getChild
        rw [hch, List.getD_eq_getElem _ _ hj, List.getD_eq_getElem _ _ hj]
      have hgn : getNode (backPropagateAt n [] res) (j :: q') = getNode n (j :: q') := by
        rw [getNode_cons, getNode_cons, hkey]
      refine ⟨by rw [hgn], by rw [hgn], by rw [hgn], by rw [hgn], ?_, ?_, fun _ => hgn⟩
      · rw [validPath_cons, hch, hkey]
        simp [hj, hq']
      · intro htrue
        simp at htrue
  | cons i rest IH =>
    intro n q hq
    match q with
    | [] =>
      rw [backPropagateAt_cons]
      refine ⟨by simp, by simp, by simp, by simp [List.length_set], by simp, ?_, ?_⟩
      · intro _
        exact ⟨by simp, by simp⟩
      · intro hfalse
        simp at hfalse
    | j :: q' =>
      rw [validPath_cons] at hq
      have hj : j < n.children.length := by simpa using (Bool.and_eq_true_iff.mp hq).1
      have hq' : validPath (getChild n j) q' = true := (Bool.and_eq_true_iff.mp hq).2
      have hch : (backPropagateAt n (i :: rest) res).children =
          n.children.set i (backPropagateAt (getChild n i) rest res) := by
        rw [backPropagateAt_cons]; simp
      by_cases hji : j = i
      · subst hji
        have hkey : getChild (backPropagateAt n (j :: rest) res) j =
            backPropagateAt (getChild n j) rest res := by
          rw [show getChild (backPropagateAt n (j :: rest) res) j =
              (backPropagateAt n (j :: rest) res).children.getD j
                (backPropagateAt n (j :: rest) res) from rfl]
          rw [hch, List.getD_eq_getElem _ _ (by rw [List.length_set]; exact hj),
            List.getElem_set]
          simp
        have hgn : getNode (backPropagateAt n (j :: rest) res) (j :: q') =
            getNode (backPropagateAt (getChild n j) rest res) q' := by
          rw [getNode_cons, hkey]
        obtain ⟨ib, ip, ie, il, iv, ii, ifr⟩ := IH (getChild n j) q' hq'
        refine ⟨?_, ?_, ?_, ?_, ?_, ?_, ?_⟩
        · rw [hgn, getNode_cons]; exact ib
        · rw [hgn, getNode_cons]; exact ip
        · rw [hgn, getNode_cons]; exact ie
        · rw [hgn, getNode_cons]; exact il
        · rw [validPath_cons, hch, hkey]
          simp only [List.length_set]
          simp [hj, iv]
        · intro hinit
          rw [isInit_cons_cons] at hinit
          have hinit' : isInit q' rest = true := by simpa using hinit
          obtain ⟨v1, w1⟩ := ii hinit'
          constructor
          · rw [hgn, getNode_cons]; exact v1
          · rw [hgn, getNode_cons]; exact w1
        · intro hinit
          rw [isInit_cons_cons] at hinit
          have hinit' : isInit q' rest = false := by simpa using hinit
          rw [hgn, getNode_cons]
          exact ifr hinit'
      · have hkey : getChild (backPropagateAt n (i :: rest) res) j = getChild n j := by
          unfold getChild
          rw [hch, List.getD_eq_getElem _ _ (by rw [List.length_set]; exact hj),
            List.getD_eq_getElem _ _ hj]
          exact List.getElem_set_of_ne (by omega) _ _
        have hgn : getNode (backPropagateAt n (i :: rest) res) (j :: q') =
            getNode n (j :: q') := by
          rw [getNode_cons, getNode_cons, hkey]
        refine ⟨by rw [hgn], by rw [hgn], by rw [hgn], by rw [hgn], ?_, ?_, fun _ => hgn⟩
        · rw [validPath_cons, hch, hkey]
          simp only [List.length_set]
          simp [hj, hq']
        · intro hinit
          rw [isInit_cons_cons] at hinit
          have := (Bool.and_eq_true_iff.mp hinit).1
          simp at this
          exact absurd this hji

@[simp] theorem childNode_wins (g : Board) (p : ℤ) (x y : Fin 3) :
    (childNode g p x y).wins = 0 := rfl

@[simp] theorem childNode_visits (g : Board) (p : ℤ) (x y : Fin 3) :
    (childNode g p x y).visits = 0 := rfl

@[simp] theorem childNode_children (g : Board) (p : ℤ) (x y : Fin 3) :
    (childNode g p x y).children = [] := rfl

@[simp] theorem childNode_game_state (g : Board) (p : ℤ) (x y : Fin 3) :
    (childNode g p x y).game_state = setCell g x y (flipPlayer p) := rfl

@[simp] theorem childNode_player (g : Board) (p : ℤ) (x y : Fin 3) :
    (childNode g p x y).player = flipPlayer p := rfl

@[simp] theorem childNode_is_end_state (g : Board) (p : ℤ) (x y : Fin 3) :
    (childNode g p x y).is_end_state =
      (check_for_draw (setCell g x y (flipPlayer p)) ||
       check_for_win (setCell g x y (flipPlayer p)) (flipPlayer p)) := rfl

theorem expandChildren_mem (g : Board) (p : ℤ) (c : Node) (h : c ∈ expandChildren g p) :
    ∃ xy : Fin 3 × Fin 3, g xy.1 xy.2 = none ∧ c = childNode g p xy.1 xy.2 := by
  unfold expandChildren at h
  rcases List.mem_map.mp h with ⟨xy, hxy, rfl⟩
  have := List.mem_filter.mp hxy
  exact ⟨xy, by simpa using this.2, rfl⟩

theorem updateAt_nil (n : Node) (f : Node → Node) : updateAt n [] f = f n := rfl

theorem updateAt_cons (n : Node) (i : ℕ) (rest : List ℕ) (f : Node → Node) :
    updateAt n (i :: rest) f = setChild n i (updateAt (getChild n i) rest f) := rfl

/-- Exact effect of `updateAt p expand` at every valid path `q`: every node
keeps its board, mover, flag and statistics; the expansion target `p` has the
fresh children appended; every other node keeps its child count. -/
theorem update_master (p : List ℕ) :
    ∀ (n : Node) (q : List ℕ), validPath n q = true →
      (getNode (updateAt n p expand) q).game_state = (getNode n q).game_state ∧
      (getNode (updateAt n p expand) q).player = (getNode n q).player ∧
      (getNode (updateAt n p expand) q).is_end_state = (getNode n q).is_end_state ∧
      (getNode (updateAt n p expand) q).visits = (getNode n q).visits ∧
      (getNode (updateAt n p expand) q).wins = (getNode n q).wins ∧
      (getNode n q).children.length ≤ (getNode (updateAt n p expand) q).children.length ∧
      validPath (updateAt n p expand) q = true ∧
      (q = p →
        (getNode (updateAt n p expand) q).children =
          (getNode n q).children ++
            expandChildren (getNode n q).game_state (getNode n q).player) ∧
      (q ≠ p →
        (getNode (updateAt n p expand) q).children.length =
          (getNode n q).children.length) := by
  induction p with
  | nil =>
    intro n q hq
    rw [updateAt_nil]
    match q with
    | [] =>
      refine ⟨by simp, by simp, by simp, by simp, by simp, by simp, by simp, ?_, ?_⟩
      · intro _
        simp
      · intro h
        exact absurd rfl h
    | j :: q' =>
      rw [validPath_cons] at hq
      have hj : j < n.children.length := by simpa using (Bool.and_eq_true_iff.mp hq).1
      have hq' : validPath (getChild n j) q' = true := (Bool.and_eq_true_iff.mp hq).2
      have hjapp : j < (expand n).children.length := by
        simp only [expand_children, List.length_append]
        omega
      have hkey : getChild (expand n) j = getChild n j := by
        rw [show getChild (expand n) j = (expand n).children.getD j (expand n) from rfl]
        rw [expand_children, List.getD_append _ _ _ _ hj]
        rw [show getChild n j = n.children.getD j n from rfl,
          List.getD_eq_getElem _ _ hj, List.getD_eq_getElem _ _ hj]
      have hgn : getNode (expand n) (j :: q') = getNode n (j :: q') := by
        rw [getNode_cons, getNode_cons, hkey]
      refine ⟨by rw [hgn], by rw [hgn], by rw [hgn], by rw [hgn], by rw [hgn],
        by rw [hgn], ?_, ?_, fun _ => by rw [hgn]⟩
      · rw [validPath_cons, hkey]
        simp [hq']
        omega
      · intro h
        exact absurd h (by simp)
  | cons i rest IH =>
    intro n q hq
    rw [updateAt_cons]
    match q with
    | [] =>
      refine ⟨by simp, by simp, by simp, by simp, by simp,
        by simp [List.length_set], by simp, ?_, ?_⟩
      · intro h
        exact absurd h (by simp)
      · intro _
        simp [List.length_set]
    | j :: q' =>
      rw [validPath_cons] at hq
      have hj : j < n.children.length := by simpa using (Bool.and_eq_true_iff.mp hq).1
      have hq' : validPath (getChild n j) q' = true := (Bool.and_eq_true_iff.mp hq).2
      have hch : (setChild n i (updateAt (getChild n i) rest expand)).children =
          n.children.set i (updateAt (getChild n i) rest expand) := by simp
      by_cases hji : j = i
      · subst hji
        have hkey : getChild (setChild n j (updateAt (getChild n j) rest expand)) j =
            updateAt (getChild n j) rest expand := by
          rw [show getChild (setChild n j (updateAt (getChild n j) rest expand)) j =
              (setChild n j (updateAt (getChild n j) rest expand)).children.getD j
                (setChild n j (updateAt (getChild n j) rest expand)) from rfl]
          rw [hch, List.getD_eq_getElem _ _ (by rw [List.length_set]; exact hj),
            List.getElem_set]
          simp
        have hgn : getNode (setChild n j (updateAt (getChild n j) rest expand)) (j :: q') =
            getNode (updateAt (getChild n j) rest expand) q' := by
          rw [getNode_cons, hkey]
        obtain ⟨ib, ip, ie, iv, iw, il, ivp, ieq, ine⟩ := IH (getChild n j) q' hq'
        refine ⟨?_, ?_, ?_, ?_, ?_, ?_, ?_, ?_, ?_⟩
        · rw [hgn, getNode_cons]; exact ib
        · rw [hgn, getNode_cons]; exact ip
        · rw [hgn, getNode_cons]; exact ie
        · rw [hgn, getNode_cons]; exact iv
        · rw [hgn, getNode_cons]; exact iw
        · rw [hgn, getNode_cons]; exact il
        · rw [validPath_cons, hch, hkey]
          simp only [List.length_set]
          simp [hj, ivp]
        · intro h
          have hq'eq : q' = rest := by
            have := List.cons.injEq j q' j rest
            rw [this] at h
            exact h.2
          rw [hgn, getNode_cons]
          exact ieq hq'eq
        · intro h
          have hq'ne : q' ≠ rest := by
            intro hc
            exact h (by rw [hc])
          rw [hgn, getNode_cons]
          exact ine hq'ne
      · have hkey : getChild (setChild n i (updateAt (getChild n i) rest expand)) j =
            getChild n j := by
          rw [show getChild (setChild n i (updateAt (getChild n i) rest expand)) j =
              (setChild n i (updateAt (getChild n i) rest expand)).children.getD j
                (setChild n i (updateAt (getChild n i) rest expand)) from rfl]
          rw [hch, List.getD_eq_getElem _ _ (by rw [List.length_set]; exact hj)]
          rw [List.getElem_set_of_ne (by omega) _ _]
          rw [show getChild n j = n.children.getD j n from rfl,
            List.getD_eq_getElem _ _ hj]
        have hgn : getNode (setChild n i (updateAt (getChild n i) rest expand)) (j :: q') =
            getNode n (j :: q') := by
          rw [getNode_cons, getNode_cons, hkey]
        refine ⟨by rw [hgn], by rw [hgn], by rw [hgn], by rw [hgn], by rw [hgn],
          by rw [hgn], ?_, ?_, fun _ => by rw [hgn]⟩
        · rw [validPath_cons, hch, hkey]
          simp only [List.length_set]
          simp [hj, hq']
        · intro h
          have : j = i := (List.cons.injEq j q' i rest ▸ h).1
          exact absurd this hji

/-- Case analysis of one search iteration: either the selected node is fresh
or terminal and is rolled out in place, or it is a visited, non-terminal and
(necessarily) childless node that gets expanded, with the rollout run on its
first child. -/
theorem mctsStep_cases (r : Node) (res : ℤ) :
    mctsStep r res = backPropagateAt r (traversePath r) res ∨
    ((getNode r (traversePath r)).visits ≠ 0 ∧
     (getNode r (traversePath r)).is_end_state = false ∧
     (getNode r (traversePath r)).children = [] ∧
     mctsStep r res =
       backPropagateAt (updateAt r (traversePath r) expand)
         (traversePath r ++ [0]) res) := by
  unfold mctsStep
  by_cases h : (getNode r (traversePath r)).visits = 0 ∨
      (getNode r (traversePath r)).is_end_state = true
  · left
    rw [if_pos h]
  · right
    push_neg at h
    obtain ⟨h1, h2⟩ := h
    refine ⟨h1, by simpa using h2, ?_, by rw [if_neg (by push_neg; exact ⟨h1, h2⟩)]⟩
    have := traverse_result r
    rw [← getNode_traversePath] at this
    rcases this with hc | hv
    · exact hc
    · exact absurd hv h1

/-- Per-iteration frame facts at every valid path: board, mover and terminal
flag are preserved, child lists never shrink, a node that already has
children keeps exactly its children count, visit counts never decrease, and
valid paths stay valid. -/
theorem mctsStep_master (r : Node) (res : ℤ) (q : List ℕ) (hq : validPath r q = true) :
    (getNode (mctsStep r res) q).game_state = (getNode r q).game_state ∧
    (getNode (mctsStep r res) q).player = (getNode r q).player ∧
    (getNode (mctsStep r res) q).is_end_state = (getNode r q).is_end_state ∧
    (getNode r q).children.length ≤ (getNode (mctsStep r res) q).children.length ∧
    validPath (mctsStep r res) q = true ∧
    ((getNode r q).children ≠ [] →
      (getNode (mctsStep r res) q).children.length = (getNode r q).children.length) ∧
    (getNode r q).visits ≤ (getNode (mctsStep r res) q).visits := by
  rcases mctsStep_cases r res with heq | ⟨h1, h2, hcnil, heq⟩
  · rw [heq]
    obtain ⟨ib, ip, ie, il, iv, ii, ifr⟩ := bp_master (traversePath r) res r q hq
    refine ⟨ib, ip, ie, by omega, iv, fun _ => il, ?_⟩
    cases hinit : isInit q (traversePath r) with
    | true =>
      have := (ii hinit).1
      omega
    | false =>
      rw [ifr hinit]
  · rw [heq]
    obtain ⟨ub, up, ue, uv, uw, ul, uvp, ueq, une⟩ :=
      update_master (traversePath r) r q hq
    obtain ⟨ib, ip, ie, il, iv, ii, ifr⟩ :=
      bp_master (traversePath r ++ [0]) res (updateAt r (traversePath r) expand) q uvp
    refine ⟨by rw [ib, ub], by rw [ip, up], by rw [ie, ue], by omega, iv, ?_, ?_⟩
    · intro hne
      have hqne : q ≠ traversePath r := by
        intro hcq
        rw [hcq] at hne
        exact hne hcnil
      rw [il, une hqne]
    · have hv2 : (getNode (updateAt r (traversePath r) expand) q).visits =
          (getNode r q).visits := uv
      cases hinit : isInit q (traversePath r ++ [0]) with
      | true =>
        have := (ii hinit).1
        omega
      | false =>
        rw [ifr hinit, hv2]

theorem mctsLoop_zero (root : Node) (results : ℕ → ℤ) : mctsLoop root results 0 = root := rfl

theorem mctsLoop_succ (root : Node) (results : ℕ → ℤ) (k : ℕ) :
    mctsLoop root results (k + 1) = mctsStep (mctsLoop root results k) (results k) := rfl

/-- Frame facts preserved by any number of search iterations. -/
theorem mctsLoop_master (root : Node) (results : ℕ → ℤ) (k : ℕ) (q : List ℕ)
    (hq : validPath root q = true) :
    validPath (mctsLoop root results k) q = true ∧
    (getNode (mctsLoop root results k) q).game_state = (getNode root q).game_state ∧
    (getNode (mctsLoop root results k) q).player = (getNode root q).player ∧
    (getNode (mctsLoop root results k) q).is_end_state = (getNode root q).is_end_state ∧
    (getNode root q).children.length ≤ (getNode (mctsLoop root results k) q).children.length := by
  induction k with
  | zero => exact ⟨hq, rfl, rfl, rfl, le_refl _⟩
  | succ k IH =>
    obtain ⟨v, b, p, e, l⟩ := IH
    obtain ⟨sb, sp, se, sl, sv, _, _⟩ := mctsStep_master (mctsLoop root results k) (results k) q v
    rw [mctsLoop_succ]
    exact ⟨sv, by rw [sb, b], by rw [sp, p], by rw [se, e], by omega⟩

/-- The tree-wide invariant behind C8: any node that has children has been
visited at least once. -/
def invN (n : Node) : Bool :=
  (decide (n.children = []) || decide (1 ≤ n.visits)) &&
    n.children.attach.all (fun c => invN c.val)
termination_by sizeOf n
decreasing_by exact Node.sizeOf_lt_of_mem_children c.2

theorem invN_iff (n : Node) : invN n = true ↔
    ((n.children = [] ∨ 1 ≤ n.visits) ∧ ∀ c ∈ n.children, invN c = true) := by
  rw [invN.eq_def]
  constructor
  · intro h
    obtain ⟨h1, h2⟩ := Bool.and_eq_true_iff.mp h
    refine ⟨by simpa using h1, ?_⟩
    intro c hc
    exact List.all_eq_true.mp h2 ⟨c, hc⟩ (List.mem_attach _ _)
  · intro h
    obtain ⟨h1, h2⟩ := h
    apply Bool.and_eq_true_iff.mpr
    refine ⟨by simpa using h1, ?_⟩
    apply List.all_eq_true.mpr
    intro c _
    exact h2 c.val c.2

theorem invN_getChild (n : Node) (i : ℕ) (h : invN n = true) : invN (getChild n i) = true := by
  by_cases hi : i < n.children.length
  · rw [getChild_eq_getElem n i hi]
    exact ((invN_iff n).mp h).2 _ (List.getElem_mem hi)
  · have hoob : getChild n i = n := by
      rw [show getChild n i = n.children.getD i n from rfl]
      exact List.getD_eq_default _ _ (by omega)
    rw [hoob]
    exact h

theorem invN_setChild (n : Node) (i : ℕ) (c : Node) (hn : invN n = true)
    (hc : invN c = true) : invN (setChild n i c) = true := by
  rw [invN_iff]
  constructor
  · rcases ((invN_iff n).mp hn).1 with h | h
    · left; simp [h]
    · right; simpa using h
  · intro d hd
    rw [setChild_children] at hd
    rcases List.mem_or_eq_of_mem_set hd with h | h
    · exact ((invN_iff n).mp hn).2 d h
    · rw [h]; exact hc

theorem invN_bpUpdate (res : ℤ) (n : Node) (hn : invN n = true) :
    invN (bpUpdate res n) = true := by
  rw [invN_iff]
  refine ⟨Or.inr (by simp), ?_⟩
  intro c hc
  rw [bpUpdate_children] at hc
  exact ((invN_iff n).mp hn).2 c hc

theorem invN_bp (path : List ℕ) (res : ℤ) :
    ∀ n : Node, invN n = true → invN (backPropagateAt n path res) = true := by
  induction path with
  | nil =>
    intro n hn
    rw [backPropagateAt_nil]
    exact invN_bpUpdate res n hn
  | cons i rest IH =>
    intro n hn
    rw [backPropagateAt_cons]
    exact invN_bpUpdate res _ (invN_setChild n i _ hn (IH _ (invN_getChild n i hn)))

theorem invN_childNode (g : Board) (p : ℤ) (x y : Fin 3) :
    invN (childNode g p x y) = true := by
  rw [invN_iff]
  exact ⟨Or.inl rfl, by simp⟩

theorem invN_expand (n : Node) (hn : invN n = true) (hv : 1 ≤ n.visits) :
    invN (expand n) = true := by
  rw [invN_iff]
  refine ⟨Or.inr (by simpa using hv), ?_⟩
  intro c hc
  rw [expand_children] at hc
  rcases List.mem_append.mp hc with h | h
  · exact ((invN_iff n).mp hn).2 c h
  · obtain ⟨xy, _, rfl⟩ := expandChildren_mem _ _ _ h
    exact invN_childNode _ _ _ _

theorem invN_updateAt_expand (p : List ℕ) :
    ∀ n : Node, invN n = true → 1 ≤ (getNode n p).visits →
      invN (updateAt n p expand) = true := by
  induction p with
  | nil =>
    intro n hn hv
    rw [updateAt_nil]
    exact invN_expand n hn (by simpa using hv)
  | cons i rest IH =>
    intro n hn hv
    rw [updateAt_cons]
    exact invN_setChild n i _ hn (IH _ (invN_getChild n i hn) (by simpa using hv))

theorem invN_mctsStep (r : Node) (res : ℤ) (hr : invN r = true) :
    invN (mctsStep r res) = true := by
  rcases mctsStep_cases r res with heq | ⟨h1, _, _, heq⟩
  · rw [heq]
    exact invN_bp _ res r hr
  · rw [heq]
    exact invN_bp _ res _ (invN_updateAt_expand _ r hr (by omega))

theorem invN_new (g : Board) (p : ℤ) : invN (Node.new g p) = true := by
  rw [invN_iff]
  exact ⟨Or.inl rfl, by simp [Node.new]⟩

theorem invN_mctsLoop (g : Board) (num : ℤ) (results : ℕ → ℤ) (k : ℕ) :
    invN (mctsLoop (Node.new g num) results k) = true := by
  induction k with
  | zero => exact invN_new g num
  | succ k IH =>
    rw [mctsLoop_succ]
    exact invN_mctsStep _ _ IH

/-- Soundness of the UCB1-call instrumentation: under the invariant, every
node on which `max_UCB1_index` is invoked is visited, has children, and all
its children (the arguments of `calculate_UCB1`) are visited. -/
theorem ucbCalls_sound (n : Node) :
    invN n = true →
      ∀ m ∈ ucbCalls n, 1 ≤ m.visits ∧ m.children ≠ [] ∧
        ∀ c ∈ m.children, 1 ≤ c.visits := by
  induction n using Node.strongInd with
  | ih n IH =>
    intro hn m hm
    by_cases hc : n.children = []
    · rw [ucbCalls_of_no_children n hc] at hm
      simp at hm
    · by_cases hz : n.children.any (fun x => x.visits == 0) = true
      · obtain ⟨_, _, _, _, _, hucb, _⟩ := traverse_of_zero_child n hz
        rw [hucb] at hm
        simp at hm
      · have h2 : n.children.any (fun x => x.visits == 0) = false := by simpa using hz
        obtain ⟨hlt, _, _, hu⟩ := traverse_of_all_visited n hc h2
        rw [hu] at hm
        rcases List.mem_cons.mp hm with rfl | hm'
        · refine ⟨?_, hc, ?_⟩
          · rcases ((invN_iff m).mp hn).1 with h | h
            · exact absurd h hc
            · exact h
          · intro c hcm
            have hfalse : (c.visits == 0) = false := by
              have := List.any_eq_false.mp h2 c hcm
              simpa using this
            have : c.visits ≠ 0 := by simpa using hfalse
            omega
        · have hmem : n.children.get ⟨max_UCB1_index n, hlt⟩ ∈ n.children :=
            List.get_mem _ _ _
          exact IH _ hmem (((invN_iff n).mp hn).2 _ hmem) m hm'

/-- Boolean statement of C8's safety condition for one selection descent. -/
noncomputable def ucbCallsOK (n : Node) : Bool :=
  (ucbCalls n).all (fun m =>
    decide (1 ≤ m.visits) && decide (m.children ≠ []) &&
      m.children.all (fun c => decide (1 ≤ c.visits)))

theorem ucbCallsOK_of_invN (n : Node) (hn : invN n = true) : ucbCallsOK n = true := by
  unfold ucbCallsOK
  apply List.all_eq_true.mpr
  intro m hm
  obtain ⟨h1, h2, h3⟩ := ucbCalls_sound n hn m hm
  refine Bool.and_eq_true_iff.mpr ⟨Bool.and_eq_true_iff.mpr ⟨by simpa using h1, by simpa using h2⟩, ?_⟩
  apply List.all_eq_true.mpr
  intro c hcm
  simpa using h3 c hcm

theorem check_for_draw_iff (g : Board) :
    check_for_draw g = true ↔ ∀ x y : Fin 3, g x y ≠ none := by
  unfold check_for_draw
  by_cases h : cellsOrder.any (fun c => decide (g c.1 c.2 = none)) = true
  · rw [if_pos h]
    simp only [Bool.false_eq_true, false_iff]
    intro hall
    obtain ⟨c, _, hc⟩ := List.any_eq_true.mp h
    exact hall c.1 c.2 (by simpa using hc)
  · rw [if_neg h]
    simp only [true_iff]
    intro x y hxy
    exact h (List.any_eq_true.mpr ⟨(x, y), mem_cellsOrder (x, y), by simpa using hxy⟩)

theorem find?_unique {α : Type} (p : α → Bool) (l : List α) (a : α)
    (ha : a ∈ l) (hpa : p a = true) (huniq : ∀ b ∈ l, p b = true → b = a) :
    l.find? p = some a := by
  induction l with
  | nil => simp at ha
  | cons x rest IH =>
    by_cases hx : p x = true
    · have hxa : x = a := huniq x (by simp) hx
      subst hxa
      simp [List.find?_cons, hx]
    · have hx' : p x = false := by simpa using hx
      rw [List.find?_cons, hx']
      rcases List.mem_cons.mp ha with rfl | har
      · exact absurd hpa hx
      · exact IH har (fun b hb hpb => huniq b (by simp [hb]) hpb)

/-- On two boards differing exactly at the empty cell `(x, y)` (the parent's
board versus the chosen child's board), find_comp_move returns that cell. -/
theorem find_comp_move_setCell (g : Board) (x y : Fin 3) (p : ℤ) (h : g x y = none) :
    find_comp_move g (setCell g x y p) = ((x.val : ℤ), (y.val : ℤ)) := by
  unfold find_comp_move
  have hfind : cellsOrder.find?
      (fun c => decide (g c.1 c.2 ≠ setCell g x y p c.1 c.2)) = some (x, y) := by
    apply find?_unique
    · exact mem_cellsOrder (x, y)
    · simp [h]
    · intro b _ hb
      by_contra hne
      have hno : ¬(b.1 = x ∧ b.2 = y) := by
        intro hxy12
        exact hne (Prod.ext hxy12.1 hxy12.2)
      have heqc : setCell g x y p b.1 b.2 = g b.1 b.2 := setCell_other g x y p b.1 b.2 hno
      rw [heqc] at hb
      simp at hb
  rw [hfind]

/-- find_comp_move on two boards with no differing cell: the out-of-range
sentinel `(-1, -1)` is returned (no exception is raised). -/
theorem find_comp_move_same (g c : Board) (h : ∀ x y : Fin 3, g x y = c x y) :
    find_comp_move g c = (-1, -1) := by
  unfold find_comp_move
  have hfind : cellsOrder.find? (fun d => decide (g d.1 d.2 ≠ c d.1 d.2)) = none := by
    apply List.find?_eq_none.mpr
    intro d _
    simp [h d.1 d.2]
  rw [hfind]

theorem calc_highest_visits_cons (c : Node) (rest : List Node) (n : Node)
    (h : n.children = c :: rest) :
    calc_highest_visits n =
      some (((c :: rest).getD
        (bestIdxAux ((c :: rest).map Node.visits) c.visits 0 0) c).game_state) := by
  unfold calc_highest_visits
  rw [h]

/-- calc_highest_visits on a node with children returns the board of one of
its children. -/
theorem calc_highest_visits_mem (n : Node) (h : n.children ≠ []) :
    ∃ c ∈ n.children, calc_highest_visits n = some c.game_state := by
  obtain ⟨c, rest, hc⟩ : ∃ c rest, n.children = c :: rest := by
    cases hcn : n.children with
    | nil => exact absurd hcn h
    | cons a b => exact ⟨a, b, rfl⟩
  rw [calc_highest_visits_cons c rest n hc]
  rcases bestIdxAux_eq_or ((c :: rest).map Node.visits) c.visits 0 0 with h0 | ⟨j, hj, hje⟩
  · refine ⟨c, ?_, ?_⟩
    · rw [hc]; simp
    · rw [h0]; rfl
  · have hj' : j < (c :: rest).length := by simpa using hj
    have hidx : bestIdxAux ((c :: rest).map Node.visits) c.visits 0 0 = j := by omega
    refine ⟨(c :: rest).get ⟨j, hj'⟩, ?_, ?_⟩
    · rw [hc]; exact List.get_mem _ _ _
    · rw [hidx, List.getD_eq_getElem _ _ hj']
      simp

/-- calc_highest_visits on a node with a single child returns that child's
board (the strict-argmax loop never moves off index 0). -/
theorem calc_highest_visits_singleton (n : Node) (c : Node) (h : n.children = [c]) :
    calc_highest_visits n = some c.game_state := by
  rw [calc_highest_visits_cons c [] n h]
  have hidx : bestIdxAux ([c].map Node.visits) c.visits 0 0 = 0 := by
    simp [bestIdxAux]
  rw [hidx]
  rfl

/-- Iteration on a childless unvisited node: rollout and update in place. -/
theorem mctsStep_fresh (n : Node) (res : ℤ) (hc : n.children = []) (hv : n.visits = 0) :
    mctsStep n res = bpUpdate res n := by
  unfold mctsStep
  rw [traversePath_of_no_children n hc]
  rw [if_pos (by simp [hv])]
  exact backPropagateAt_nil n res

/-- Iteration on a childless, visited, non-terminal node: expand it, then
rollout on child 0 and back-propagate from there. -/
theorem mctsStep_expandCase (n : Node) (res : ℤ) (hc : n.children = [])
    (hv : n.visits ≠ 0) (he : n.is_end_state = false) :
    mctsStep n res = backPropagateAt (expand n) [0] res := by
  unfold mctsStep
  rw [traversePath_of_no_children n hc]
  rw [if_neg (by simp [hv, he])]
  rw [updateAt_nil]
  rfl

/-- Iteration on a root whose only child is a visited terminal leaf: the
selection walks to that child and the statistics on root and child are
updated. -/
theorem mctsStep_terminalChild (n c : Node) (res : ℤ) (h : n.children = [c])
    (hv : c.visits ≠ 0) (he : c.is_end_state = true) (hcc : c.children = []) :
    mctsStep n res = backPropagateAt n [0] res := by
  have hne : n.children ≠ [] := by rw [h]; simp
  have hz : n.children.any (fun x => x.visits == 0) = false := by
    rw [h]
    simpa using hv
  obtain ⟨hlt, _, hp, _⟩ := traverse_of_all_visited n hne hz
  have hidx0 : max_UCB1_index n = 0 := by
    have := max_UCB1_index_lt n hne
    rw [h] at this
    simpa using this
  have h1 : n.children.get ⟨max_UCB1_index n, hlt⟩ ∈ n.children := List.get_mem _ _ _
  set d := n.children.get ⟨max_UCB1_index n, hlt⟩ with hd
  rw [h] at h1
  have hgetc : d = c := by simpa using h1
  have hpath : traversePath n = [0] := by
    rw [hp, hidx0, hgetc, traversePath_of_no_children c hcc]
  have hcur : getNode n [0] = c := by
    rw [getNode_cons, getNode_nil,
      show getChild n 0 = n.children.getD 0 n from rfl, h]
    rfl
  unfold mctsStep
  rw [hpath, hcur, if_pos (Or.inr he)]

/-- Shape invariant for the search over a board with exactly one empty cell
`(x, y)`: the root keeps board `g` and exactly one child, a visited terminal
leaf holding the one-move completion of `g`. -/
def oneCellInv (g : Board) (num : ℤ) (x y : Fin 3) (r : Node) : Prop :=
  r.game_state = g ∧
  ∃ c : Node, r.children = [c] ∧ c.visits ≠ 0 ∧ c.children = [] ∧
    c.is_end_state = true ∧ c.game_state = setCell g x y (flipPlayer num)

theorem oneCellInv_step (g : Board) (num : ℤ) (x y : Fin 3) (r : Node) (res : ℤ)
    (h : oneCellInv g num x y r) : oneCellInv g num x y (mctsStep r res) := by
  obtain ⟨hb, c, hch, hv, hcc, he, hcb⟩ := h
  rw [mctsStep_terminalChild r c res hch hv he hcc]
  rw [backPropagateAt_cons, backPropagateAt_nil]
  have hg0 : getChild r 0 = c := by
    rw [show getChild r 0 = r.children.getD 0 r from rfl, hch]
    rfl
  constructor
  · simp [hb]
  · refine ⟨bpUpdate res c, ?_, by simp, by simp [hcc], by simp [he], by simp [hcb]⟩
    rw [hg0]
    simp [hch]

theorem oneCell_empty (g : Board) (x y : Fin 3)
    (hfil : cellsOrder.filter (fun c => decide (g c.1 c.2 = none)) = [(x, y)]) :
    g x y = none := by
  have hmem : (x, y) ∈ cellsOrder.filter (fun c => decide (g c.1 c.2 = none)) := by
    rw [hfil]
    simp
  simpa using (List.mem_filter.mp hmem).2

theorem oneCell_others (g : Board) (x y : Fin 3)
    (hfil : cellsOrder.filter (fun c => decide (g c.1 c.2 = none)) = [(x, y)])
    (a b : Fin 3) (hne : ¬(a = x ∧ b = y)) : g a b ≠ none := by
  intro hab
  have hmem : (a, b) ∈ cellsOrder.filter (fun c => decide (g c.1 c.2 = none)) :=
    List.mem_filter.mpr ⟨mem_cellsOrder _, by simpa using hab⟩
  rw [hfil] at hmem
  simp at hmem
  exact hne ⟨hmem.1, hmem.2⟩

theorem oneCellInv_start (g : Board) (num : ℤ) (x y : Fin 3) (results : ℕ → ℤ)
    (hfil : cellsOrder.filter (fun c => decide (g c.1 c.2 = none)) = [(x, y)]) :
    oneCellInv g num x y (mctsLoop (Node.new g num) results 2) := by
  have hs0 : mctsLoop (Node.new g num) results 1 = bpUpdate (results 0) (Node.new g num) := by
    rw [mctsLoop_succ, mctsLoop_zero]
    exact mctsStep_fresh _ _ rfl rfl
  have hroot1c : (bpUpdate (results 0) (Node.new g num)).children = [] := by
    simp [Node.new]
  have hroot1v : (bpUpdate (results 0) (Node.new g num)).visits ≠ 0 := by
    simp [Node.new]
  have hroot1e : (bpUpdate (results 0) (Node.new g num)).is_end_state = false := by
    simp [Node.new]
  have hs1 : mctsLoop (Node.new g num) results 2 =
      backPropagateAt (expand (bpUpdate (results 0) (Node.new g num))) [0] (results 1) := by
    rw [show (2 : ℕ) = 1 + 1 from rfl, mctsLoop_succ, hs0]
    exact mctsStep_expandCase _ _ hroot1c hroot1v hroot1e
  have hexp : expandChildren g num = [childNode g num x y] := by
    unfold expandChildren
    rw [hfil]
    rfl
  have hfull : check_for_draw (setCell g x y (flipPlayer num)) = true := by
    rw [check_for_draw_iff]
    intro a b hab
    by_cases h1 : a = x ∧ b = y
    · rw [h1.1, h1.2] at hab
      simp at hab
    · rw [setCell_other g x y _ a b h1] at hab
      exact oneCell_others g x y hfil a b h1 hab
  have hchexp : (expand (bpUpdate (results 0) (Node.new g num))).children =
      [childNode g num x y] := by
    rw [expand_children, hroot1c]
    simp [Node.new, hexp]
  rw [hs1, backPropagateAt_cons, backPropagateAt_nil]
  have hg0 : getChild (expand (bpUpdate (results 0) (Node.new g num))) 0 =
      childNode g num x y := by
    rw [show getChild (expand (bpUpdate (results 0) (Node.new g num))) 0 =
        (expand (bpUpdate (results 0) (Node.new g num))).children.getD 0
          (expand (bpUpdate (results 0) (Node.new g num))) from rfl, hchexp]
    rfl
  constructor
  · simp [Node.new]
  · refine ⟨bpUpdate (results 1) (childNode g num x y), ?_, by simp, by simp, ?_, by simp⟩
    · rw [hg0]
      simp [hchexp]
    · simp [hfull]

theorem oneCellInv_loop (g : Board) (num : ℤ) (x y : Fin 3) (results : ℕ → ℤ)
    (hfil : cellsOrder.filter (fun c => decide (g c.1 c.2 = none)) = [(x, y)]) :
    ∀ j : ℕ, oneCellInv g num x y (mctsLoop (Node.new g num) results (2 + j)) := by
  intro j
  induction j with
  | zero => exact oneCellInv_start g num x y results hfil
  | succ j IH =>
    rw [show 2 + (j + 1) = (2 + j) + 1 by omega, mctsLoop_succ]
    exact oneCellInv_step g num x y _ _ IH

/-- On a board with exactly one empty cell `(x, y)`, make_comp_move returns
that cell's coordinates, whatever the rollout outcomes are. -/
theorem make_comp_move_oneCell (g : Board) (num : ℤ) (results : ℕ → ℤ) (x y : Fin 3)
    (hfil : cellsOrder.filter (fun c => decide (g c.1 c.2 = none)) = [(x, y)]) :
    make_comp_move g num results = some ((x.val : ℤ), (y.val : ℤ)) := by
  have hinv : oneCellInv g num x y (mctsLoop (Node.new g num) results 1000) := by
    have h := oneCellInv_loop g num x y results hfil 998
    have he : (2 : ℕ) + 998 = 1000 := by norm_num
    rw [he] at h
    exact h
  obtain ⟨hb, c, hch, _, _, _, hcb⟩ := hinv
  unfold make_comp_move
  rw [calc_highest_visits_singleton _ c hch, Option.map_some', hb, hcb,
    find_comp_move_setCell g x y _ (oneCell_empty g x y hfil)]

theorem bp_top_player (path : List ℕ) (res : ℤ) (n : Node) :
    (backPropagateAt n path res).player = n.player := by
  match path with
  | [] => rw [backPropagateAt_nil]; simp
  | i :: rest => rw [backPropagateAt_cons]; simp

theorem set_map_game_state (l : List Node) (d : Node) :
    ∀ (i : ℕ) (c : Node), c.game_state = (l.getD i d).game_state →
      (l.set i c).map Node.game_state = l.map Node.game_state := by
  induction l with
  | nil =>
    intro i c _
    simp
  | cons a rest IH =>
    intro i c h
    match i with
    | 0 =>
      simp only [List.set_cons_zero, List.map_cons]
      rw [show (a :: rest).getD 0 d = a from rfl] at h
      rw [h]
    | i + 1 =>
      simp only [List.set_cons_succ, List.map_cons]
      rw [IH i c (by simpa using h)]

/-- Back-propagation changes no board: neither the root's nor any root
child's. -/
theorem bp_children_boards (path : List ℕ) (res : ℤ) :
    ∀ n : Node,
      ((backPropagateAt n path res).children).map Node.game_state =
        n.children.map Node.game_state ∧
      (backPropagateAt n path res).game_state = n.game_state := by
  induction path with
  | nil =>
    intro n
    rw [backPropagateAt_nil]
    exact ⟨by simp, by simp⟩
  | cons i rest IH =>
    intro n
    rw [backPropagateAt_cons]
    constructor
    · simp only [bpUpdate_children, setChild_children]
      exact set_map_game_state n.children n i _ (IH (getChild n i)).2
    · simp

/-- Expansion somewhere in the tree changes no root-child board: either the
root's child boards are untouched, or (expansion at the root itself) the fresh
children are appended behind them. -/
theorem updateAt_expand_children_boards (p : List ℕ) :
    ∀ n : Node,
      (updateAt n p expand).game_state = n.game_state ∧
      (updateAt n p expand).player = n.player ∧
      ((updateAt n p expand).children.map Node.game_state =
          n.children.map Node.game_state ∨
        (updateAt n p expand).children =
          n.children ++ expandChildren n.game_state n.player) := by
  induction p with
  | nil =>
    intro n
    rw [updateAt_nil]
    exact ⟨by simp, by simp, Or.inr (by simp)⟩
  | cons i rest IH =>
    intro n
    rw [updateAt_cons]
    refine ⟨by simp, by simp, Or.inl ?_⟩
    simp only [setChild_children]
    exact set_map_game_state n.children n i _ (IH (getChild n i)).1

/-- Shape invariant of the search tree rooted on board `g` with mover `num`:
the root keeps board and mover, and every root child is a one-move completion
of some empty cell of `g`. -/
def rootInv (g : Board) (num : ℤ) (r : Node) : Prop :=
  r.game_state = g ∧ r.player = num ∧
  ∀ c ∈ r.children, ∃ xy : Fin 3 × Fin 3,
    g xy.1 xy.2 = none ∧ c.game_state = setCell g xy.1 xy.2 (flipPlayer num)

theorem rootInv_mem_of_boards (g : Board) (num : ℤ) (r r2 : Node)
    (hmap : r2.children.map Node.game_state = r.children.map Node.game_state)
    (h : ∀ c ∈ r.children, ∃ xy : Fin 3 × Fin 3,
      g xy.1 xy.2 = none ∧ c.game_state = setCell g xy.1 xy.2 (flipPlayer num)) :
    ∀ c ∈ r2.children, ∃ xy : Fin 3 × Fin 3,
      g xy.1 xy.2 = none ∧ c.game_state = setCell g xy.1 xy.2 (flipPlayer num) := by
  intro c hc
  have hmem : c.game_state ∈ r2.children.map Node.game_state :=
    List.mem_map_of_mem _ hc
  rw [hmap] at hmem
  obtain ⟨d, hd, hde⟩ := List.mem_map.mp hmem
  obtain ⟨xy, h1, h2⟩ := h d hd
  exact ⟨xy, h1, by rw [← hde, h2]⟩

theorem rootInv_step (g : Board) (num : ℤ) (r : Node) (res : ℤ)
    (h : rootInv g num r) : rootInv g num (mctsStep r res) := by
  obtain ⟨hb, hp, hchf⟩ := h
  rcases mctsStep_cases r res with heq | ⟨_, _, _, heq⟩
  · rw [heq]
    obtain ⟨hmap, hbb⟩ := bp_children_boards (traversePath r) res r
    exact ⟨by rw [hbb, hb], by rw [bp_top_player, hp],
      rootInv_mem_of_boards g num r _ hmap hchf⟩
  · rw [heq]
    obtain ⟨ub, up, uch⟩ := updateAt_expand_children_boards (traversePath r) r
    obtain ⟨hmap2, hbb2⟩ :=
      bp_children_boards (traversePath r ++ [0]) res (updateAt r (traversePath r) expand)
    refine ⟨by rw [hbb2, ub, hb], by rw [bp_top_player, up, hp], ?_⟩
    apply rootInv_mem_of_boards g num (updateAt r (traversePath r) expand) _ hmap2
    rcases uch with hmap1 | happ
    · exact rootInv_mem_of_boards g num r _ hmap1 hchf
    · intro c hc
      rw [happ] at hc
      rcases List.mem_append.mp hc with hcl | hcr
      · exact hchf c hcl
      · obtain ⟨xy, hxy, hceq⟩ := expandChildren_mem _ _ _ hcr
        refine ⟨xy, ?_, ?_⟩
        · rw [← hb]; exact hxy
        · rw [hceq]
          simp [hb, hp]

theorem rootInv_loop (g : Board) (num : ℤ) (results : ℕ → ℤ) (k : ℕ) :
    rootInv g num (mctsLoop (Node.new g num) results k) := by
  induction k with
  | zero =>
    rw [mctsLoop_zero]
    exact ⟨rfl, rfl, by simp [Node.new]⟩
  | succ k IH =>
    rw [mctsLoop_succ]
    exact rootInv_step g num _ _ IH

theorem expandChildren_ne (g : Board) (p : ℤ) (x y : Fin 3) (h : g x y = none) :
    expandChildren g p ≠ [] := by
  unfold expandChildren
  intro hc
  have hmem : (x, y) ∈ cellsOrder.filter (fun c => decide (g c.1 c.2 = none)) :=
    List.mem_filter.mpr ⟨mem_cellsOrder _, by simpa using h⟩
  rw [List.map_eq_nil_iff.mp hc] at hmem
  simp at hmem

/-- The state of the search after its first two iterations: the root was
rolled out once, then expanded, and its first child rolled out. -/
theorem mctsLoop_two (g : Board) (num : ℤ) (results : ℕ → ℤ) :
    mctsLoop (Node.new g num) results 2 =
      backPropagateAt (expand (bpUpdate (results 0) (Node.new g num))) [0] (results 1) := by
  have hs0 : mctsLoop (Node.new g num) results 1 = bpUpdate (results 0) (Node.new g num) := by
    rw [mctsLoop_succ, mctsLoop_zero]
    exact mctsStep_fresh _ _ rfl rfl
  rw [show (2 : ℕ) = 1 + 1 from rfl, mctsLoop_succ, hs0]
  exact mctsStep_expandCase _ _ (by simp [Node.new]) (by simp [Node.new]) (by simp [Node.new])

theorem loop_children_ne (g : Board) (num : ℤ) (results : ℕ → ℤ) (x y : Fin 3)
    (h : g x y = none) :
    ∀ j : ℕ, (mctsLoop (Node.new g num) results (2 + j)).children ≠ [] := by
  have base : (mctsLoop (Node.new g num) results 2).children ≠ [] := by
    rw [mctsLoop_two, backPropagateAt_cons]
    simp only [bpUpdate_children, setChild_children, expand_children]
    intro hc
    rw [List.set_eq_nil_iff] at hc
    have hnil : expandChildren g num = [] := by simpa [Node.new] using hc
    exact expandChildren_ne g num x y h hnil
  intro j
  induction j with
  | zero => exact base
  | succ j IH =>
    rw [show 2 + (j + 1) = (2 + j) + 1 by omega, mctsLoop_succ]
    obtain ⟨_, _, _, hlen, _, _, _⟩ :=
      mctsStep_master (mctsLoop (Node.new g num) results (2 + j)) (results (2 + j)) [] rfl
    intro hc
    apply IH
    have hstep0 :
        (mctsStep (mctsLoop (Node.new g num) results (2 + j))
          (results (2 + j))).children.length = 0 := by
      rw [hc]
      rfl
    rw [getNode_nil, getNode_nil] at hlen
    have h0 : (mctsLoop (Node.new g num) results (2 + j)).children.length = 0 := by omega
    exact List.eq_nil_of_length_eq_zero h0
  
/-- On any board with at least one empty cell, make_comp_move returns a
coordinate pair, and it is within bounds 0..2. -/
theorem make_comp_move_inBounds (g : Board) (num : ℤ) (results : ℕ → ℤ) (x y : Fin 3)
    (h : g x y = none) :
    ∃ rr cc : ℤ, make_comp_move g num results = some (rr, cc) ∧
      0 ≤ rr ∧ rr ≤ 2 ∧ 0 ≤ cc ∧ cc ≤ 2 := by
  have hne : (mctsLoop (Node.new g num) results 1000).children ≠ [] := by
    have h998 := loop_children_ne g num results x y h 998
    have he : (2 : ℕ) + 998 = 1000 := by norm_num
    rw [he] at h998
    exact h998
  obtain ⟨c, hcm, hcalc⟩ := calc_highest_visits_mem _ hne
  obtain ⟨hb, hp, hch⟩ := rootInv_loop g num results 1000
  obtain ⟨xy, hxy, hcb⟩ := hch c hcm
  refine ⟨xy.1.val, xy.2.val, ?_, ?_, ?_, ?_, ?_⟩
  · unfold make_comp_move
    rw [hcalc, Option.map_some', hb, hcb,
      find_comp_move_setCell g xy.1 xy.2 _ hxy]
  · omega
  · have := xy.1.isLt
    omega
  · omega
  · have := xy.2.isLt
    omega

theorem cellsOrder_eq_rowMajor :
    cellsOrder = [((0 : Fin 3), (0 : Fin 3)), (0, 1), (0, 2),
      (1, 0), (1, 1), (1, 2), (2, 0), (2, 1), (2, 2)] := by decide

/-- Pointwise specification of `expand` on a childless node: one child per
empty cell (in scan order), each the parent board with exactly that cell set
to the flipped mover, created fresh with the win-or-full terminal flag. -/
theorem expand_elem_spec (n : Node) (h : n.children = []) :
    (expand n).children.length =
      (cellsOrder.filter (fun c => decide (n.game_state c.1 c.2 = none))).length ∧
    ∀ (i : ℕ)
      (hi : i < (cellsOrder.filter (fun c => decide (n.game_state c.1 c.2 = none))).length),
      ∃ hic : i < (expand n).children.length,
        ((expand n).children[i]).player = flipPlayer n.player ∧
        ((expand n).children[i]).visits = 0 ∧
        ((expand n).children[i]).wins = 0 ∧
        ((expand n).children[i]).children = [] ∧
        n.game_state
          ((cellsOrder.filter (fun c => decide (n.game_state c.1 c.2 = none)))[i]).1
          ((cellsOrder.filter (fun c => decide (n.game_state c.1 c.2 = none)))[i]).2 = none ∧
        ((expand n).children[i]).game_state =
          setCell n.game_state
            ((cellsOrder.filter (fun c => decide (n.game_state c.1 c.2 = none)))[i]).1
            ((cellsOrder.filter (fun c => decide (n.game_state c.1 c.2 = none)))[i]).2
            (flipPlayer n.player) ∧
        (((expand n).children[i]).is_end_state = true ↔
          (check_for_win ((expand n).children[i]).game_state
              ((expand n).children[i]).player = true ∨
            check_for_draw ((expand n).children[i]).game_state = true)) := by
  have hch : (expand n).children =
      (cellsOrder.filter (fun c => decide (n.game_state c.1 c.2 = none))).map
        (fun c => childNode n.game_state n.player c.1 c.2) := by
    rw [expand_children, h, List.nil_append]
    rfl
  constructor
  · rw [hch]
    simp
  · intro i hi
    have hic : i < (expand n).children.length := by
      rw [hch]
      simpa using hi
    refine ⟨hic, ?_⟩
    have hgete : (expand n).children[i] =
        childNode n.game_state n.player
          ((cellsOrder.filter (fun c => decide (n.game_state c.1 c.2 = none)))[i]).1
          ((cellsOrder.filter (fun c => decide (n.game_state c.1 c.2 = none)))[i]).2 := by
      rw [List.getElem_of_eq hch hic]
      simp
    have hemem : (cellsOrder.filter (fun c => decide (n.game_state c.1 c.2 = none)))[i] ∈
        cellsOrder.filter (fun c => decide (n.game_state c.1 c.2 = none)) :=
      List.getElem_mem hi
    have hempty : n.game_state
        ((cellsOrder.filter (fun c => decide (n.game_state c.1 c.2 = none)))[i]).1
        ((cellsOrder.filter (fun c => decide (n.game_state c.1 c.2 = none)))[i]).2 = none := by
      simpa using (List.mem_filter.mp hemem).2
    refine ⟨by rw [hgete]; simp, by rw [hgete]; simp, by rw [hgete]; simp,
      by rw [hgete]; simp, hempty, by rw [hgete]; simp, ?_⟩
    rw [hgete]
    simp only [childNode_is_end_state, childNode_game_state, childNode_player,
      Bool.or_eq_true]
    constructor
    · intro hor
      exact hor.symm
    · intro hor
      exact hor.symm

/-- The all-empty board (the game's initial `[["X","X","X"], ...]`). -/
def emptyBoard : Board := fun _ _ => none

/-- A board whose only empty cell is `(2, 2)`. -/
def lastCellBoard : Board := fun i j => if i = 2 ∧ j = 2 then none else some 1

/-- A board whose top row is a completed line for player 1. -/
def topRowBoard : Board := fun i _ => if i = 0 then some 1 else none

/-- Claim C1 (counterexample): on two boards with no differing cell,
`find_comp_move` returns normally with the sentinel pair `(-1, -1)` — it does
not signal a fatal internal-consistency failure, contradicting the claim that
the failure is surfaced as an error and not as a sentinel value. -/
theorem find_comp_move_no_diff_counterexample :
    find_comp_move emptyBoard emptyBoard = (-1, -1) := by decide

/-- Claim C1 (amended): for every pair of boards with no differing cell,
`find_comp_move` does not return an in-band 0..2 coordinate; but the failure
is signalled by silently returning the out-of-range sentinel `(-1, -1)`, not
by raising an error. -/
theorem find_comp_move_no_diff_sentinel (g c : Board)
    (h : ∀ x y : Fin 3, g x y = c x y) :
    find_comp_move g c = (-1, -1) ∧
    ¬(0 ≤ (find_comp_move g c).1 ∧ (find_comp_move g c).1 ≤ 2) ∧
    ¬(0 ≤ (find_comp_move g c).2 ∧ (find_comp_move g c).2 ≤ 2) := by
  have heq := find_comp_move_same g c h
  refine ⟨heq, ?_, ?_⟩
  · rw [heq]
    intro hcon
    omega
  · rw [heq]
    intro hcon
    omega

theorem find_comp_move_no_diff_sentinel_witness :
    (∀ x y : Fin 3, lastCellBoard x y = lastCellBoard x y) ∧
    (find_comp_move lastCellBoard lastCellBoard = (-1, -1) ∧
      ¬(0 ≤ (find_comp_move lastCellBoard lastCellBoard).1 ∧
        (find_comp_move lastCellBoard lastCellBoard).1 ≤ 2) ∧
      ¬(0 ≤ (find_comp_move lastCellBoard lastCellBoard).2 ∧
        (find_comp_move lastCellBoard lastCellBoard).2 ≤ 2)) :=
  ⟨fun _ _ => rfl, find_comp_move_no_diff_sentinel lastCellBoard lastCellBoard
    (fun _ _ => rfl)⟩

/-- Claim C2 (counterexample): the root node that `make_comp_move` creates via
`Node.new` (`root = Node(state, num)`) always carries terminal flag `False`,
even when its state is already a win for the mover: for the top-row win board
and mover 1 the flag is `False` while the win oracle holds, so at creation the
flag does not equal (win for mover) OR (full board). -/
theorem root_terminal_flag_counterexample :
    (Node.new topRowBoard 1).is_end_state = false ∧
    check_for_win topRowBoard 1 = true :=
  ⟨rfl, by decide⟩

/-- Claim C2 (amended): a node created during `expand` has, at the moment its
construction completes, terminal flag equal to (win for the node's mover) OR
(full board); the root node created by `make_comp_move` instead always has
terminal flag `False` at creation (`Node.__init__` initialises it to `False`
and `make_comp_move` never recomputes it), which coincides with the claimed
value only when the board passed in is not already terminal. -/
theorem terminal_flag_at_creation :
    (∀ (g : Board) (p : ℤ) (x y : Fin 3),
      ((childNode g p x y).is_end_state = true ↔
        (check_for_win (childNode g p x y).game_state (childNode g p x y).player = true ∨
          check_for_draw (childNode g p x y).game_state = true))) ∧
    (∀ (g : Board) (p : ℤ), (Node.new g p).is_end_state = false) := by
  constructor
  · intro g p x y
    simp only [childNode_is_end_state, childNode_game_state, childNode_player,
      Bool.or_eq_true]
    constructor
    · intro hor
      exact hor.symm
    · intro hor
      exact hor.symm
  · intro g p
    rfl

/-- Claim C3: for every node with no children, `expand` appends exactly one
child per empty cell of its board, in the row-major scan order `cellsOrder`
(spelled out as a literal list in the first conjunct); the i-th child's board
is the parent's board with exactly the i-th empty cell set to the flipped
mover, its mover is the flipped mover, its statistics are fresh, and its
terminal flag holds iff the child board is a win for the new mover or full.
The Python `parent` reference of each child is the expanded node itself,
which this embedding represents by the child's position under that node. -/
theorem expand_completeness (n : Node) (h : n.children = []) :
    cellsOrder = [((0 : Fin 3), (0 : Fin 3)), (0, 1), (0, 2),
      (1, 0), (1, 1), (1, 2), (2, 0), (2, 1), (2, 2)] ∧
    (expand n).children.length =
      (cellsOrder.filter (fun c => decide (n.game_state c.1 c.2 = none))).length ∧
    ∀ (i : ℕ)
      (hi : i < (cellsOrder.filter (fun c => decide (n.game_state c.1 c.2 = none))).length),
      ∃ hic : i < (expand n).children.length,
        ((expand n).children[i]).player = flipPlayer n.player ∧
        ((expand n).children[i]).visits = 0 ∧
        ((expand n).children[i]).wins = 0 ∧
        ((expand n).children[i]).children = [] ∧
        n.game_state
          ((cellsOrder.filter (fun c => decide (n.game_state c.1 c.2 = none)))[i]).1
          ((cellsOrder.filter (fun c => decide (n.game_state c.1 c.2 = none)))[i]).2 =
          none ∧
        ((expand n).children[i]).game_state =
          setCell n.game_state
            ((cellsOrder.filter (fun c => decide (n.game_state c.1 c.2 = none)))[i]).1
            ((cellsOrder.filter (fun c => decide (n.game_state c.1 c.2 = none)))[i]).2
            (flipPlayer n.player) ∧
        (((expand n).children[i]).is_end_state = true ↔
          (check_for_win ((expand n).children[i]).game_state
              ((expand n).children[i]).player = true ∨
            check_for_draw ((expand n).children[i]).game_state = true)) :=
  ⟨cellsOrder_eq_rowMajor, (expand_elem_spec n h).1, (expand_elem_spec n h).2⟩

theorem expand_completeness_witness :
    ((Node.new emptyBoard 1).children = []) ∧
    (expand (Node.new emptyBoard 1)).children.length =
      (cellsOrder.filter
        (fun c => decide ((Node.new emptyBoard 1).game_state c.1 c.2 = none))).length :=
  ⟨rfl, (expand_completeness (Node.new emptyBoard 1) rfl).2.1⟩

/-- Claim C4: `traverse` returns the node itself when it has no children;
otherwise, if some child has zero visits, it returns the first zero-visit
child in child order and evaluates no UCB1 score (`ucbCalls` is empty);
otherwise it recurses into the child of maximal UCB1 score; and the node it
finally returns has no children or zero visits. -/
theorem traverse_spec (n : Node) :
    (n.children = [] → traverse n = n ∧ ucbCalls n = []) ∧
    ((∃ c ∈ n.children, c.visits = 0) →
      ucbCalls n = [] ∧
      ∃ (i : ℕ) (hi : i < n.children.length),
        traverse n = n.children[i] ∧ (n.children[i]).visits = 0 ∧
        ∀ (j : ℕ) (hj : j < n.children.length), j < i → (n.children[j]).visits ≠ 0) ∧
    (n.children ≠ [] → (∀ c ∈ n.children, c.visits ≠ 0) →
      ∃ hlt : max_UCB1_index n < n.children.length,
        traverse n = traverse (n.children[max_UCB1_index n])) ∧
    ((traverse n).children = [] ∨ (traverse n).visits = 0) := by
  refine ⟨?_, ?_, ?_, traverse_result n⟩
  · intro h
    exact ⟨traverse_of_no_children n h, ucbCalls_of_no_children n h⟩
  · intro h
    have hany : n.children.any (fun x => x.visits == 0) = true := by
      obtain ⟨c, hc, hv⟩ := h
      exact List.any_eq_true.mpr ⟨c, hc, by simpa using hv⟩
    obtain ⟨i, hi, ht, hv, _, hu, hb⟩ := traverse_of_zero_child n hany
    exact ⟨hu, i, hi, ht, hv, hb⟩
  · intro h1 h2
    have hz : n.children.any (fun x => x.visits == 0) = false := by
      rw [List.any_eq_false]
      intro x hx
      simpa using h2 x hx
    obtain ⟨hlt, ht, _, _⟩ := traverse_of_all_visited n h1 hz
    exact ⟨hlt, ht⟩

theorem traverse_spec_witness :
    ((Node.new emptyBoard 1).children = []) ∧
    traverse (Node.new emptyBoard 1) = Node.new emptyBoard 1 ∧
    ucbCalls (Node.new emptyBoard 1) = [] :=
  ⟨rfl, ((traverse_spec (Node.new emptyBoard 1)).1 rfl).1,
    ((traverse_spec (Node.new emptyBoard 1)).1 rfl).2⟩

/-- Claim C5: for a child with at least one visit and a visited parent,
`calculate_UCB1` equals wins/visits + 1.4 * sqrt(log2(parent visits)/visits)
(the parent's visit count is the explicit first argument in this
parent-pointer-free embedding); and `max_UCB1_index` returns the lowest index
attaining the maximal score: the returned index is maximal among all children
and strictly beats every earlier-indexed child, since a later child displaces
the running best only on a strictly greater score. -/
theorem ucb1_formula_and_tie_break :
    (∀ (pv : ℕ) (c : Node), 1 ≤ c.visits → 1 ≤ pv →
      calculate_UCB1 pv c =
        (c.wins : ℝ) / (c.visits : ℝ) +
          1.4 * Real.sqrt (Real.logb 2 (pv : ℝ) / (c.visits : ℝ))) ∧
    (∀ n : Node, n.children ≠ [] →
      ∃ hlt : max_UCB1_index n < n.children.length,
        (∀ (j : ℕ) (hj : j < n.children.length),
          calculate_UCB1 n.visits (n.children[j]) ≤
            calculate_UCB1 n.visits (n.children[max_UCB1_index n])) ∧
        (∀ (j : ℕ) (hj : j < n.children.length), j < max_UCB1_index n →
          calculate_UCB1 n.visits (n.children[j]) <
            calculate_UCB1 n.visits (n.children[max_UCB1_index n]))) :=
  ⟨fun _ _ _ _ => rfl, fun n h => max_UCB1_index_spec n h⟩

theorem ucb1_formula_and_tie_break_witness :
    (1 ≤ (Node.mk 1 1 [] emptyBoard 2 false).visits) ∧ (1 ≤ 3) ∧
    calculate_UCB1 3 (Node.mk 1 1 [] emptyBoard 2 false) =
      ((Node.mk 1 1 [] emptyBoard 2 false).wins : ℝ) /
          ((Node.mk 1 1 [] emptyBoard 2 false).visits : ℝ) +
        1.4 * Real.sqrt (Real.logb 2 ((3 : ℕ) : ℝ) /
          ((Node.mk 1 1 [] emptyBoard 2 false).visits : ℝ)) ∧
    ((Node.mk 0 1 [Node.mk 1 1 [] emptyBoard 2 false] emptyBoard 1 false).children ≠ []) ∧
    (∃ hlt : max_UCB1_index
        (Node.mk 0 1 [Node.mk 1 1 [] emptyBoard 2 false] emptyBoard 1 false) <
        (Node.mk 0 1 [Node.mk 1 1 [] emptyBoard 2 false] emptyBoard 1 false).children.length,
      (∀ (j : ℕ) (hj : j <
          (Node.mk 0 1 [Node.mk 1 1 [] emptyBoard 2 false] emptyBoard 1 false).children.length),
        calculate_UCB1
          (Node.mk 0 1 [Node.mk 1 1 [] emptyBoard 2 false] emptyBoard 1 false).visits
          ((Node.mk 0 1 [Node.mk 1 1 [] emptyBoard 2 false] emptyBoard 1 false).children[j]) ≤
          calculate_UCB1
            (Node.mk 0 1 [Node.mk 1 1 [] emptyBoard 2 false] emptyBoard 1 false).visits
            ((Node.mk 0 1 [Node.mk 1 1 [] emptyBoard 2 false] emptyBoard 1 false).children[
              max_UCB1_index
                (Node.mk 0 1 [Node.mk 1 1 [] emptyBoard 2 false] emptyBoard 1 false)])) ∧
      (∀ (j : ℕ) (hj : j <
          (Node.mk 0 1 [Node.mk 1 1 [] emptyBoard 2 false] emptyBoard 1 false).children.length),
        j < max_UCB1_index
          (Node.mk 0 1 [Node.mk 1 1 [] emptyBoard 2 false] emptyBoard 1 false) →
        calculate_UCB1
          (Node.mk 0 1 [Node.mk 1 1 [] emptyBoard 2 false] emptyBoard 1 false).visits
          ((Node.mk 0 1 [Node.mk 1 1 [] emptyBoard 2 false] emptyBoard 1 false).children[j]) <
          calculate_UCB1
            (Node.mk 0 1 [Node.mk 1 1 [] emptyBoard 2 false] emptyBoard 1 false).visits
            ((Node.mk 0 1 [Node.mk 1 1 [] emptyBoard 2 false] emptyBoard 1 false).children[
              max_UCB1_index
                (Node.mk 0 1 [Node.mk 1 1 [] emptyBoard 2 false] emptyBoard 1 false)]))) :=
  ⟨by decide, by decide,
    ucb1_formula_and_tie_break.1 3 (Node.mk 1 1 [] emptyBoard 2 false)
      (by decide) (by decide),
    List.cons_ne_nil _ _,
    ucb1_formula_and_tie_break.2
      (Node.mk 0 1 [Node.mk 1 1 [] emptyBoard 2 false] emptyBoard 1 false)
      (List.cons_ne_nil _ _)⟩

/-- Claim C6: `backPropagateAt` (the embedding of `back_propagate`, walking
the parent chain as the initial segments of the selected node's path) adds
exactly 1 visit to every node on that chain and adds win credit 1 when the
rollout result equals the node's mover, 1/2 on the draw sentinel -20, and 0
otherwise; it leaves every node's board, mover, terminal flag and child count
unchanged and leaves every off-chain node entirely unchanged.  Moreover
`expand`, the only other mutator, never changes `wins`/`visits`: it preserves
the expanded node's statistics and creates its children with zero statistics
(selection and UCB1 scoring are pure functions in this embedding). -/
theorem back_propagate_effect (root : Node) (path : List ℕ) (res : ℤ) (q : List ℕ)
    (hq : validPath root q = true) :
    (isInit q path = true →
      (getNode (backPropagateAt root path res) q).visits = (getNode root q).visits + 1 ∧
      (getNode (backPropagateAt root path res) q).wins =
        (getNode root q).wins +
          (if res = -20 then (1 : ℚ) / 2
            else if (getNode root q).player = res then 1 else 0) ∧
      (getNode (backPropagateAt root path res) q).game_state =
        (getNode root q).game_state ∧
      (getNode (backPropagateAt root path res) q).player = (getNode root q).player ∧
      (getNode (backPropagateAt root path res) q).is_end_state =
        (getNode root q).is_end_state ∧
      (getNode (backPropagateAt root path res) q).children.length =
        (getNode root q).children.length) ∧
    (isInit q path = false →
      getNode (backPropagateAt root path res) q = getNode root q) ∧
    (∀ m : Node, (expand m).wins = m.wins ∧ (expand m).visits = m.visits ∧
      ∀ c ∈ expandChildren m.game_state m.player, c.wins = 0 ∧ c.visits = 0) := by
  obtain ⟨ib, ip, ie, il, _, ii, ifr⟩ := bp_master path res root q hq
  refine ⟨?_, ifr, ?_⟩
  · intro h
    obtain ⟨v1, w1⟩ := ii h
    exact ⟨v1, by rw [w1]; rfl, ib, ip, ie, il⟩
  · intro m
    refine ⟨by simp, by simp, ?_⟩
    intro c hc
    obtain ⟨xy, _, rfl⟩ := expandChildren_mem _ _ _ hc
    exact ⟨rfl, rfl⟩

theorem back_propagate_effect_witness :
    (validPath (Node.mk 0 0 [Node.new emptyBoard 2] emptyBoard 1 false) [0] = true) ∧
    (isInit [0] [0] = true) ∧
    (getNode (backPropagateAt
        (Node.mk 0 0 [Node.new emptyBoard 2] emptyBoard 1 false) [0] 1) [0]).visits =
      (getNode (Node.mk 0 0 [Node.new emptyBoard 2] emptyBoard 1 false) [0]).visits + 1 :=
  ⟨by decide, by decide,
    ((back_propagate_effect (Node.mk 0 0 [Node.new emptyBoard 2] emptyBoard 1 false)
      [0] 1 [0] (by decide)).1 (by decide)).1⟩

/-- Claim C7: on a board whose empty cells are exactly `[(x, y)]`,
`make_comp_move` returns that cell's row and column whatever values the
rollout random source yields (the `results` stream over-approximates it); and
on any board with at least one empty cell it returns a coordinate pair within
bounds 0..2. -/
theorem make_comp_move_moves :
    (∀ (g : Board) (num : ℤ) (results : ℕ → ℤ) (x y : Fin 3),
      cellsOrder.filter (fun c => decide (g c.1 c.2 = none)) = [(x, y)] →
      make_comp_move g num results = some ((x.val : ℤ), (y.val : ℤ))) ∧
    (∀ (g : Board) (num : ℤ) (results : ℕ → ℤ) (x y : Fin 3),
      g x y = none →
      ∃ rr cc : ℤ, make_comp_move g num results = some (rr, cc) ∧
        0 ≤ rr ∧ rr ≤ 2 ∧ 0 ≤ cc ∧ cc ≤ 2) :=
  ⟨fun g num results x y h => make_comp_move_oneCell g num results x y h,
   fun g num results x y h => make_comp_move_inBounds g num results x y h⟩

theorem make_comp_move_moves_witness :
    (cellsOrder.filter (fun c => decide (lastCellBoard c.1 c.2 = none)) =
      [((2 : Fin 3), (2 : Fin 3))]) ∧
    make_comp_move lastCellBoard 1 (fun _ => 1) =
      some (((2 : Fin 3).val : ℤ), ((2 : Fin 3).val : ℤ)) ∧
    (emptyBoard 0 0 = none) ∧
    (∃ rr cc : ℤ, make_comp_move emptyBoard 1 (fun _ => 1) = some (rr, cc) ∧
      0 ≤ rr ∧ rr ≤ 2 ∧ 0 ≤ cc ∧ cc ≤ 2) :=
  ⟨by decide,
   make_comp_move_moves.1 lastCellBoard 1 (fun _ => 1) 2 2 (by decide),
   rfl,
   make_comp_move_moves.2 emptyBoard 1 (fun _ => 1) 0 0 rfl⟩

/-- Claim C8: in every tree state reachable by `make_comp_move`'s iteration
loop (any iteration count `k`, any rollout outcomes), the instrumented
selection descent `ucbCalls` shows that every node on which `max_UCB1_index`
invokes `calculate_UCB1` has `visits ≥ 1` (the parent-visits argument of the
score) and a non-empty child list all of whose children have `visits ≥ 1`
(the divisors), so the division and log2 arguments are well-defined and the
zero-visit branch is unreachable. -/
theorem ucb1_preconditions_in_loop (g : Board) (num : ℤ) (results : ℕ → ℤ) (k : ℕ) :
    ucbCallsOK (mctsLoop (Node.new g num) results k) = true :=
  ucbCallsOK_of_invN _ (invN_mctsLoop g num results k)

/-- Claim C9: the node selected by `traversePath` — the only node `expand` is
ever applied to inside `mctsStep`'s else branch — is always childless or
unvisited (and the else branch requires non-zero visits, so the expansion
target is childless); and across one iteration, any node that already has
children keeps exactly its child count, so a populated child list is never
appended to again.  As this holds for every tree `r`, it holds throughout the
iteration loop of `make_comp_move`. -/
theorem expansion_once (r : Node) (res : ℤ) (q : List ℕ) :
    ((getNode r (traversePath r)).children = [] ∨
      (getNode r (traversePath r)).visits = 0) ∧
    (validPath r q = true → (getNode r q).children ≠ [] →
      (getNode (mctsStep r res) q).children.length = (getNode r q).children.length) := by
  constructor
  · have h := traverse_result r
    rw [← getNode_traversePath r] at h
    exact h
  · intro hq hne
    exact (mctsStep_master r res q hq).2.2.2.2.2.1 hne

theorem expansion_once_witness :
    (validPath (Node.mk 0 1 [Node.new emptyBoard 2] emptyBoard 1 false) [] = true) ∧
    ((getNode (Node.mk 0 1 [Node.new emptyBoard 2] emptyBoard 1 false) []).children ≠ []) ∧
    (getNode (mctsStep (Node.mk 0 1 [Node.new emptyBoard 2] emptyBoard 1 false) 1)
        []).children.length =
      (getNode (Node.mk 0 1 [Node.new emptyBoard 2] emptyBoard 1 false) []).children.length :=
  ⟨rfl, List.cons_ne_nil _ _,
    (expansion_once (Node.mk 0 1 [Node.new emptyBoard 2] emptyBoard 1 false) 1 []).2
      rfl (List.cons_ne_nil _ _)⟩

/-- Claim C10: one search iteration never changes the board of any existing
node — at every valid path the node's `game_state` is unchanged (and the path
stays valid) — and after any number of iterations the root still holds,
cell-for-cell, the board `make_comp_move` was given, even though the root
references it directly; `expand` and `rollout` only ever build fresh boards
(deep copies in the source). -/
theorem boards_immutable (r : Node) (res : ℤ) (q : List ℕ) (g : Board) (num : ℤ)
    (results : ℕ → ℤ) (k : ℕ) :
    (validPath r q = true →
      (getNode (mctsStep r res) q).game_state = (getNode r q).game_state ∧
      validPath (mctsStep r res) q = true) ∧
    (mctsLoop (Node.new g num) results k).game_state = g := by
  constructor
  · intro hq
    obtain ⟨hb, _, _, _, hv, _, _⟩ := mctsStep_master r res q hq
    exact ⟨hb, hv⟩
  · obtain ⟨_, hb, _, _, _⟩ := mctsLoop_master (Node.new g num) results k [] rfl
    rw [getNode_nil, getNode_nil] at hb
    exact hb

theorem boards_immutable_witness :
    (validPath (Node.new emptyBoard 1) [] = true) ∧
    ((getNode (mctsStep (Node.new emptyBoard 1) 1) []).game_state =
      (getNode (Node.new emptyBoard 1) []).game_state ∧
     validPath (mctsStep (Node.new emptyBoard 1) 1) [] = true) :=
  ⟨rfl, (boards_immutable (Node.new emptyBoard 1) 1 [] emptyBoard 1 (fun _ => 1) 0).1 rfl⟩
